import Mathlib

set_option linter.unusedSectionVars false
set_option linter.deprecated false
set_option linter.unusedVariables false

/-
Formal model of the Robin Hood hash set of the vecl repository
(src/include/vecl/robin_set.hpp), specifically the `inline_robin_set_impl`
table engine selected by the public `robin_set` facade (`Inlined = true` is
the facade default).  The backing `simple_buffer` is modelled as a
fixed-length list of slots; an inline slot (`inline_set_node`) is `none`
when dead and `some {value, probes}` when alive.  The `distance_type` of
the source is `uint16_t`; the model uses `Nat`, which agrees with the
source whenever probe distances stay below 2^16 (probe distances are
bounded by the capacity in every reachable state, so the two agree for
capacities up to 2^16).  The `StoreHash` variant caches `Hash{}(key)` in
the slot and recomputes it otherwise; since the hash functor is pure the
two coincide, and the model recomputes.  The equality functor `Equal` is
modelled as decidable equality on the key type.  The source's unbounded
`while (true)` loops are given explicit fuel; fuel sufficiency for the
canonical fuel values used by the public operations is proved below for
every reachable table.
-/

namespace Vecl

/-- Modelled from the spec: `power_of_two_growth` is referenced by
`robin_set.hpp` (`using growth_policy = power_of_two_growth`) but the
header defining it is not in the source tree.  Spec section 4.2:
`next_capacity(current) -> capacity` returns `current * 2`. -/
def power_of_two_growth.next (current : Nat) : Nat := current * 2

/-- Modelled from the spec: `power_of_two_growth::start`.  Spec section 4.2:
`start_capacity(size_hint) -> capacity` returns the smallest power of two
that is at least 8 and strictly greater than `size_hint`. -/
def power_of_two_growth.start (size_hint : Nat) : Nat :=
  8 * 2 ^ (Nat.log2 (max size_hint 4) - 2)

/-- Modelled from the spec: the probe sequence generator
`linear_probe_seq<1, true>` is referenced by `robin_set.hpp`
(`using probe_type = linear_probe_seq<1, true>`) but the header defining
it is not in the source tree.  Spec section 3: it is a stateless function
of `(hash, capacity)` producing slot index `(hash + i) & (capacity - 1)`
at step `i`; section 4.1 gives the contract `start`, `next` (advance one
unit-stride step), `offset`, and peeking `k` steps ahead. -/
structure linear_probe_seq where
  hsh : Nat
  cap : Nat
  idx : Nat
  deriving DecidableEq

/-- Modelled from the spec: `start(hash, capacity) -> state`. -/
def linear_probe_seq.start (h c : Nat) : linear_probe_seq := ⟨h, c, 0⟩

/-- Modelled from the spec: `next(state)` advances by one step. -/
def linear_probe_seq.next (s : linear_probe_seq) : linear_probe_seq :=
  { s with idx := s.idx + 1 }

/-- Modelled from the spec: `seq.advance(n)` (used by `robin_set.hpp`)
advances `n` steps. -/
def linear_probe_seq.advance (s : linear_probe_seq) (n : Nat) : linear_probe_seq :=
  { s with idx := s.idx + n }

/-- Modelled from the spec: `offset(state) -> index`, a bitmask because the
capacity is always a power of two. -/
def linear_probe_seq.offset (s : linear_probe_seq) : Nat :=
  (s.hsh + s.idx) &&& (s.cap - 1)

/-- Modelled from the spec: `offset_at(state, k)` peeks `k` steps ahead
without mutating the state (used as `seq.offset(1)` in `_try_erase`). -/
def linear_probe_seq.offsetAt (s : linear_probe_seq) (k : Nat) : Nat :=
  (s.hsh + s.idx + k) &&& (s.cap - 1)

/-- The slot index probed at step `i` for a given hash and capacity:
`(hash + i) & (capacity - 1)`.  This is `(linear_probe_seq.start h c).advance i
|>.offset`, the form in which the probe sequence is consumed by every
table-engine loop. -/
def probeAt (h c i : Nat) : Nat := (h + i) &&& (c - 1)

/-- A live entry of an inline slot (`inline_set_node` with `_alive = true`):
the stored value and its current probe distance (`probes`). -/
structure Node (K : Type) where
  value : K
  probes : Nat
  deriving DecidableEq

/-- The backing buffer (`simple_buffer<node_type>`): a fixed-length array of
slots, each dead (`none`) or alive (`some node`). -/
abbrev Buffer (K : Type) := List (Option (Node K))

/-- Read slot `j` of the buffer (dead for out-of-range indices). -/
def slotAt {K : Type} (arr : Buffer K) (j : Nat) : Option (Node K) :=
  arr.getD j none

/-- Number of live slots in the buffer. -/
def liveCount {K : Type} (arr : Buffer K) : Nat :=
  arr.countP (fun o => o.isSome)

/-- A key occurs in some live slot of the buffer. -/
def MemArr {K : Type} (arr : Buffer K) (k : K) : Prop :=
  ∃ j < arr.length, ∃ nd, slotAt arr j = some nd ∧ nd.value = k

/-- The displacement loop `_insert_into(max_probes, arr, node&&)` of
`inline_robin_set_impl` (robin_set.hpp lines 812-848): re-inserts a
displaced node, starting its probe sequence advanced by the node's current
probe count; an empty slot receives the node, a poorer occupant
(`node.probes > arr[off].probes`) is stolen from and recursively
re-inserted, otherwise the node advances one step.  `max_probes` is
accumulated.  Fuel counts loop iterations. -/
def insertNode {K : Type} [DecidableEq K] (hash : K → Nat) :
    Nat → Buffer K → Node K → Nat → Option (Buffer K × Nat)
  | 0, _, _, _ => none
  | fuel + 1, arr, nd, maxP =>
    let off := probeAt (hash nd.value) arr.length nd.probes
    match slotAt arr off with
    | none => some (arr.set off (some nd), max nd.probes maxP)
    | some m =>
      if m.probes < nd.probes then
        insertNode hash fuel (arr.set off (some nd)) m (max nd.probes maxP)
      else
        insertNode hash fuel arr { nd with probes := nd.probes + 1 } maxP

/-- The key-insertion loop `_insert_into(max_probes, arr, key)` of
`inline_robin_set_impl` (robin_set.hpp lines 850-896): probes from
`Hash{}(key)` with `probe_count` starting at 0; an empty slot is
constructed in place (returns `true`), an equal occupant stops the insert
(returns `false`), a poorer occupant is displaced and re-inserted via
`insertNode`, otherwise advance. -/
def insertKey {K : Type} [DecidableEq K] (hash : K → Nat) :
    Nat → Buffer K → K → Nat → Nat → Option (Buffer K × Nat × Bool)
  | 0, _, _, _, _ => none
  | fuel + 1, arr, key, pc, maxP =>
    let off := probeAt (hash key) arr.length pc
    match slotAt arr off with
    | none => some (arr.set off (some ⟨key, pc⟩), max pc maxP, true)
    | some m =>
      if m.value = key then some (arr, maxP, false)
      else if m.probes < pc then
        match insertNode hash fuel (arr.set off (some ⟨key, pc⟩)) m maxP with
        | none => none
        | some (arr2, maxP2) => some (arr2, max pc maxP2, true)
      else insertKey hash fuel arr key (pc + 1) maxP

/-- The backward-shift loop of `_try_erase` (robin_set.hpp lines 910-920):
with the slot at step `i` of hash `h`'s probe sequence just vacated, pull
each following entry whose probe distance is nonzero one slot backward,
decrementing its distance, until an empty slot or a distance-0 entry is
reached. -/
def fillSlot {K : Type} :
    Nat → Buffer K → Nat → Nat → Option (Buffer K)
  | 0, _, _, _ => none
  | fuel + 1, arr, h, i =>
    let off := probeAt h arr.length i
    let nxt := probeAt h arr.length (i + 1)
    match slotAt arr nxt with
    | some m =>
      if m.probes ≠ 0 then
        fillSlot fuel ((arr.set off (some { m with probes := m.probes - 1 })).set nxt none) h (i + 1)
      else some arr
    | none => some arr

/-- The scan of `_try_erase` (robin_set.hpp lines 898-927): probe at most
`max_probes + 1` steps (`t` counts the remaining steps); an empty slot or
an exhausted scan reports `false`; finding the key destroys that slot and
runs the backward shift. -/
def eraseLoop {K : Type} [DecidableEq K] (hash : K → Nat) :
    Buffer K → K → Nat → Nat → Option (Buffer K × Bool)
  | arr, _, _, 0 => some (arr, false)
  | arr, key, i, t + 1 =>
    let off := probeAt (hash key) arr.length i
    match slotAt arr off with
    | none => some (arr, false)
    | some m =>
      if m.value = key then
        match fillSlot (arr.length + 1) (arr.set off none) (hash key) i with
        | none => none
        | some arr2 => some (arr2, true)
      else eraseLoop hash arr key (i + 1) t

/-- The scan of `_contained_in` (robin_set.hpp lines 929-952): probe at
most `max_probes + 1` steps, comparing with the equality functor (the
cached-hash pre-filter is commented out in the inline variant); an empty
slot or an exhausted scan reports `false`. -/
def containsLoop {K : Type} [DecidableEq K] (hash : K → Nat) :
    Buffer K → K → Nat → Nat → Bool
  | _, _, _, 0 => false
  | arr, key, i, t + 1 =>
    match slotAt arr (probeAt (hash key) arr.length i) with
    | none => false
    | some m => if m.value = key then true else containsLoop hash arr key (i + 1) t

/-- The table engine state (`inline_robin_set_impl`): backing buffer
`_arr`, live-entry count `_size`, and `_max_probes`. -/
structure Table (K : Type) where
  arr : Buffer K
  size : Nat
  maxProbes : Nat
  deriving DecidableEq

/-- `capacity()`: the length of the backing buffer. -/
def Table.capacity {K : Type} (t : Table K) : Nat := t.arr.length

/-- A key is held by some live slot of the table. -/
def Table.Mem {K : Type} (t : Table K) (k : K) : Prop := MemArr t.arr k

/-- `_should_grow()`: `load_factor() > 0.75f`, i.e. `size / capacity >
0.75` computed in `float`.  For a power-of-two capacity and a size below
2^24 the float computation is exact, so the comparison is the rational one:
`4 * size > 3 * capacity`. -/
def shouldGrow {K : Type} (t : Table K) : Bool :=
  decide (3 * t.capacity < 4 * t.size)

/-- The re-insertion loop of `_grow_table` (robin_set.hpp lines 1123-1138):
every live slot of the old buffer, taken in slot order, has its probe
count reset to 0 and is re-inserted into the new buffer via the
displacement loop, accumulating a fresh `max_probes`. -/
def growLoop {K : Type} [DecidableEq K] (hash : K → Nat) :
    List (Option (Node K)) → Buffer K → Nat → Option (Buffer K × Nat)
  | [], arr, maxP => some (arr, maxP)
  | none :: rest, arr, maxP => growLoop hash rest arr maxP
  | some nd :: rest, arr, maxP =>
    match insertNode hash (2 * arr.length + 2) arr { nd with probes := 0 } maxP with
    | none => none
    | some (arr2, maxP2) => growLoop hash rest arr2 maxP2

/-- `_grow_table()`: allocate a buffer of the doubled capacity
(`growth_policy{}.next(capacity())`), re-insert every live entry, install
the new buffer and the freshly accumulated `max_probes` (`_size` is
untouched). -/
def growTable {K : Type} [DecidableEq K] (hash : K → Nat) (t : Table K) :
    Option (Table K) :=
  match growLoop hash t.arr (List.replicate (power_of_two_growth.next t.capacity) none) 0 with
  | none => none
  | some (arr2, maxP2) => some ⟨arr2, t.size, maxP2⟩

/-- `insert(key)`: grow first if `_should_grow()`, then run the
key-insertion loop; a `true` outcome increments `_size`. -/
def Table.insert {K : Type} [DecidableEq K] (hash : K → Nat) (t : Table K) (key : K) :
    Option (Table K × Bool) :=
  match (if shouldGrow t then growTable hash t else some t) with
  | none => none
  | some t1 =>
    match insertKey hash (2 * t1.capacity + 3) t1.arr key 0 t1.maxProbes with
    | none => none
    | some (arr2, maxP2, b) =>
      if b then some (⟨arr2, t1.size + 1, maxP2⟩, true)
      else some (⟨arr2, t1.size, maxP2⟩, false)

/-- `erase(key)`: run the bounded erase scan; a `true` outcome decrements
`_size` (`_max_probes` is never lowered). -/
def Table.erase {K : Type} [DecidableEq K] (hash : K → Nat) (t : Table K) (key : K) :
    Option (Table K × Bool) :=
  match eraseLoop hash t.arr key 0 (t.maxProbes + 1) with
  | none => none
  | some (arr2, true) => some (⟨arr2, t.size - 1, t.maxProbes⟩, true)
  | some (arr2, false) => some (⟨arr2, t.size, t.maxProbes⟩, false)

/-- `contains(key)`: the bounded membership scan. -/
def Table.contains {K : Type} [DecidableEq K] (hash : K → Nat) (t : Table K) (key : K) : Bool :=
  containsLoop hash t.arr key 0 (t.maxProbes + 1)

/-- `count(key)`: 1 if contained, else 0. -/
def Table.count {K : Type} [DecidableEq K] (hash : K → Nat) (t : Table K) (key : K) : Nat :=
  if Table.contains hash t key then 1 else 0

/-- `clear()`: destroy every slot, reset `_size` and `_max_probes`;
capacity is preserved. -/
def Table.clear {K : Type} (t : Table K) : Table K :=
  ⟨t.arr.map (fun _ => none), 0, 0⟩

/-- The default-constructed table: capacity 8, empty. -/
def Table.empty (K : Type) : Table K :=
  ⟨List.replicate 8 none, 0, 0⟩

/-- Tables reachable from the default-constructed table by the public
mutating operations (`insert`, `erase`, `clear`; growth happens inside
`insert`). -/
inductive Reachable {K : Type} [DecidableEq K] (hash : K → Nat) : Table K → Prop where
  | base : Reachable hash (Table.empty K)
  | ins {t t' : Table K} {k : K} {b : Bool} :
      Reachable hash t → Table.insert hash t k = some (t', b) → Reachable hash t'
  | del {t t' : Table K} {k : K} {b : Bool} :
      Reachable hash t → Table.erase hash t k = some (t', b) → Reachable hash t'
  | clr {t : Table K} : Reachable hash t → Reachable hash (Table.clear t)

/-- A public mutating operation, for scripting concrete executions. -/
inductive Op (K : Type) where
  | ins (k : K)
  | del (k : K)
  deriving DecidableEq

/-- Run a list of operations, threading the table. -/
def runOps {K : Type} [DecidableEq K] (hash : K → Nat) :
    Table K → List (Op K) → Option (Table K)
  | t, [] => some t
  | t, Op.ins k :: rest =>
    match Table.insert hash t k with
    | none => none
    | some (t', _) => runOps hash t' rest
  | t, Op.del k :: rest =>
    match Table.erase hash t k with
    | none => none
    | some (t', _) => runOps hash t' rest

/-- The probe distances of the entries encountered when walking key `k`'s
probe sequence from its ideal slot, stopping (inclusively) at the slot
holding `k`, or at an empty slot, or after `capacity` steps. -/
def walkDistsAux {K : Type} [DecidableEq K] (hash : K → Nat) (arr : Buffer K) (k : K) :
    Nat → Nat → List Nat
  | _, 0 => []
  | i, steps + 1 =>
    match slotAt arr (probeAt (hash k) arr.length i) with
    | none => []
    | some m =>
      if m.value = k then [m.probes]
      else m.probes :: walkDistsAux hash arr k (i + 1) steps

/-- The probe-distance trace of a full walk for key `k`. -/
def walkDists {K : Type} [DecidableEq K] (hash : K → Nat) (arr : Buffer K) (k : K) : List Nat :=
  walkDistsAux hash arr k 0 arr.length

/-- The largest probe distance any live entry currently has. -/
def maxLiveProbes {K : Type} (arr : Buffer K) : Nat :=
  arr.foldl (fun a o => match o with | some nd => max a nd.probes | none => a) 0

/-- Structural well-formedness of a backing buffer: the capacity is a
positive power of two; every live entry sits exactly `probes` steps past
its ideal slot (`probes` below capacity); the Robin Hood ordering holds
(an entry with positive probe distance is directly preceded by an entry
at most one probe poorer); and no key occupies two slots. -/
structure ArrWF {K : Type} (hash : K → Nat) (arr : Buffer K) : Prop where
  pos : 0 < arr.length
  pow2 : ∃ k, arr.length = 2 ^ k
  consistent : ∀ j nd, slotAt arr j = some nd →
    nd.probes < arr.length ∧ j = (hash nd.value + nd.probes) % arr.length
  rh : ∀ j nd, slotAt arr j = some nd → 0 < nd.probes →
    ∃ m, slotAt arr ((j + (arr.length - 1)) % arr.length) = some m ∧ nd.probes ≤ m.probes + 1
  nodups : ∀ j1 j2 nd1 nd2, slotAt arr j1 = some nd1 → slotAt arr j2 = some nd2 →
    nd1.value = nd2.value → j1 = j2

/-- The table invariant maintained by every public operation: the buffer is
well formed, the capacity is at least 8, `_size` counts the live slots and
stays below capacity, and `_max_probes` bounds every live probe distance. -/
structure Inv {K : Type} (hash : K → Nat) (t : Table K) : Prop where
  wf : ArrWF hash t.arr
  cap8 : 8 ≤ t.capacity
  sizeEq : t.size = liveCount t.arr
  sizeLt : t.size < t.capacity
  probesLe : ∀ j nd, slotAt t.arr j = some nd → nd.probes ≤ t.maxProbes

instance slotHoldsDecidable {K : Type} [DecidableEq K] (o : Option (Node K)) (k : K) :
    Decidable (∃ nd, o = some nd ∧ nd.value = k) :=
  match o with
  | none => isFalse (by simp)
  | some nd =>
    if h : nd.value = k then isTrue ⟨nd, rfl, h⟩
    else isFalse (by simp [h])

instance memArrDecidable {K : Type} [DecidableEq K] (arr : Buffer K) (k : K) :
    Decidable (MemArr arr k) :=
  decidable_of_iff (∃ j ∈ List.range arr.length, ∃ nd, slotAt arr j = some nd ∧ nd.value = k)
    (by simp [MemArr, List.mem_range])

instance tableMemDecidable {K : Type} [DecidableEq K] (t : Table K) (k : K) :
    Decidable (Table.Mem t k) :=
  memArrDecidable t.arr k

/-- The identity hash on naturals, used for the concrete executions. -/
def idhash : Nat → Nat := fun n => n

/-- The table produced by inserting 0..5 into the default table. -/
def c3tbl : Table Nat :=
  (runOps idhash (Table.empty Nat) ((List.range 6).map Op.ins)).getD (Table.empty Nat)

/-- The table produced by inserting 0..6 into the default table. -/
def c3tbl7 : Table Nat :=
  (runOps idhash (Table.empty Nat) ((List.range 7).map Op.ins)).getD (Table.empty Nat)

/-- The table produced by inserting 0, 8, 1 (identity hash, so 0 and 8
share the ideal slot 0 at capacity 8). -/
def c4tbl : Table Nat :=
  (runOps idhash (Table.empty Nat) [Op.ins 0, Op.ins 8, Op.ins 1]).getD (Table.empty Nat)

/-- The table produced by inserting 0 and 8 and then erasing 8. -/
def c6tbl : Table Nat :=
  (runOps idhash (Table.empty Nat) [Op.ins 0, Op.ins 8, Op.del 8]).getD (Table.empty Nat)

/-- The table produced by inserting 0..6 into the default table (load
factor 7/8, above the growth threshold). -/
def c9tbl : Table Nat :=
  (runOps idhash (Table.empty Nat) ((List.range 7).map Op.ins)).getD (Table.empty Nat)

section Lemmas

variable {K : Type} [DecidableEq K]

theorem node_val (v : K) (p : Nat) : (⟨v, p⟩ : Node K).value = v := rfl

theorem node_pr (v : K) (p : Nat) : (⟨v, p⟩ : Node K).probes = p := rfl

theorem slotAt_lt_length {arr : Buffer K} {j : Nat} {nd : Node K}
    (h : slotAt arr j = some nd) : j < arr.length := by
  by_contra hj
  rw [slotAt, List.getD_eq_getElem?_getD, List.getElem?_eq_none (by omega)] at h
  simp at h

theorem slotAt_getElem {arr : Buffer K} {j : Nat} (hj : j < arr.length) :
    slotAt arr j = arr[j] :=
  List.getD_eq_getElem arr none hj

theorem slotAt_set_self {arr : Buffer K} {j : Nat} (v : Option (Node K))
    (hj : j < arr.length) : slotAt (arr.set j v) j = v := by
  rw [slotAt, List.getD_eq_getElem?_getD, List.getElem?_set_eq hj]
  rfl

theorem slotAt_set_ne {arr : Buffer K} {i j : Nat} (v : Option (Node K))
    (h : i ≠ j) : slotAt (arr.set j v) i = slotAt arr i := by
  rw [slotAt, slotAt, List.getD_eq_getElem?_getD, List.getD_eq_getElem?_getD,
    List.getElem?_set_ne (Ne.symm h)]

theorem liveCount_le_length (arr : Buffer K) : liveCount arr ≤ arr.length :=
  List.countP_le_length _

theorem exists_none_of_liveCount_lt {arr : Buffer K}
    (h : liveCount arr < arr.length) : ∃ e < arr.length, slotAt arr e = none := by
  by_contra hno
  push_neg at hno
  have hall : ∀ o ∈ arr, (fun o => Option.isSome o) o = true := by
    intro o ho
    obtain ⟨i, hi, hoi⟩ := List.mem_iff_getElem.mp ho
    have hne := hno i hi
    rw [slotAt_getElem hi, hoi] at hne
    simpa [Option.isSome_iff_ne_none] using hne
  have hlen : liveCount arr = arr.length := List.countP_eq_length.mpr hall
  omega

theorem liveCount_set_some_none {arr : Buffer K} {j : Nat} (nd : Node K)
    (hj : j < arr.length) (hn : slotAt arr j = none) :
    liveCount (arr.set j (some nd)) = liveCount arr + 1 := by
  have harr : arr[j] = (none : Option (Node K)) := by
    rw [← slotAt_getElem hj]; exact hn
  have hc := List.countP_set (fun o => Option.isSome o) arr j (some nd) hj
  rw [harr] at hc
  simp at hc
  simpa [liveCount] using hc

theorem liveCount_set_some_some {arr : Buffer K} {j : Nat} {m : Node K} (nd : Node K)
    (hs : slotAt arr j = some m) :
    liveCount (arr.set j (some nd)) = liveCount arr := by
  have hj : j < arr.length := slotAt_lt_length hs
  have harr : arr[j] = some m := by rw [← slotAt_getElem hj]; exact hs
  have hpos : 0 < liveCount arr := by
    rw [liveCount]
    exact List.countP_pos.mpr ⟨some m, harr ▸ List.getElem_mem hj, rfl⟩
  have hc := List.countP_set (fun o => Option.isSome o) arr j (some nd) hj
  rw [harr] at hc
  simp at hc
  rw [liveCount] at hpos
  simp only [liveCount] at hc ⊢
  omega

theorem liveCount_set_none_some {arr : Buffer K} {j : Nat} {m : Node K}
    (hs : slotAt arr j = some m) :
    liveCount (arr.set j none) + 1 = liveCount arr := by
  have hj : j < arr.length := slotAt_lt_length hs
  have harr : arr[j] = some m := by rw [← slotAt_getElem hj]; exact hs
  have hpos : 0 < liveCount arr := by
    rw [liveCount]
    exact List.countP_pos.mpr ⟨some m, harr ▸ List.getElem_mem hj, rfl⟩
  have hc := List.countP_set (fun o => Option.isSome o) arr j none hj
  rw [harr] at hc
  simp at hc
  rw [liveCount] at hpos
  simp only [liveCount] at hc ⊢
  omega

theorem probeAt_eq_mod {c : Nat} (hpow : ∃ k, c = 2 ^ k) (h i : Nat) :
    probeAt h c i = (h + i) % c := by
  obtain ⟨k, rfl⟩ := hpow
  exact Nat.and_pow_two_sub_one_eq_mod (h + i) k

theorem mod_add_inj {c : Nat} (hc : 0 < c) {x a b : Nat} (ha : a < c) (hb : b < c)
    (h : (x + a) % c = (x + b) % c) : a = b := by
  have hmod : a % c = b % c := Nat.ModEq.add_left_cancel' x h
  rwa [Nat.mod_eq_of_lt ha, Nat.mod_eq_of_lt hb] at hmod

theorem pred_walk {c : Nat} (hc : 0 < c) (x s : Nat) :
    ((x + (s + 1)) % c + (c - 1)) % c = (x + s) % c := by
  rw [Nat.mod_add_mod]
  have h : x + (s + 1) + (c - 1) = (x + s) + c := by omega
  rw [h, Nat.add_mod_right]

theorem shift_mod {c : Nat} (x a b : Nat) :
    ((x + a) % c + b) % c = (x + a + b) % c :=
  Nat.mod_add_mod (x + a) c b

theorem exists_step_to {c : Nat} (hc : 0 < c) (x e : Nat) (he : e < c) :
    ∃ t < c, (x + t) % c = e := by
  by_cases hle : x % c ≤ e
  · refine ⟨e - x % c, by omega, ?_⟩
    have h1 : (e - x % c) % c = e - x % c := Nat.mod_eq_of_lt (by omega)
    rw [Nat.add_mod, h1]
    have h2 : x % c + (e - x % c) = e := by omega
    rw [h2, Nat.mod_eq_of_lt he]
  · have hx : x % c < c := Nat.mod_lt _ hc
    refine ⟨c + e - x % c, by omega, ?_⟩
    have h1 : (c + e - x % c) % c = c + e - x % c := Nat.mod_eq_of_lt (by omega)
    rw [Nat.add_mod, h1]
    have h2 : x % c + (c + e - x % c) = c + e := by omega
    rw [h2]
    have h3 : (c + e) % c = e % c := by rw [Nat.add_comm, Nat.add_mod_right]
    rw [h3, Nat.mod_eq_of_lt he]

theorem memArr_of_slot {arr : Buffer K} {j : Nat} {nd : Node K}
    (hj : slotAt arr j = some nd) : MemArr arr nd.value :=
  ⟨j, slotAt_lt_length hj, nd, hj, rfl⟩

theorem memArr_set_empty {arr : Buffer K} {j : Nat} {nd : Node K}
    (hj : j < arr.length) (hn : slotAt arr j = none) (k : K) :
    MemArr (arr.set j (some nd)) k ↔ (MemArr arr k ∨ k = nd.value) := by
  constructor
  · rintro ⟨i, hi, q, hq, hqv⟩
    by_cases hij : i = j
    · subst hij
      rw [slotAt_set_self _ hj] at hq
      right
      cases hq
      exact hqv.symm
    · rw [slotAt_set_ne _ hij] at hq
      exact Or.inl ⟨i, by simpa using hi, q, hq, hqv⟩
  · rintro (⟨i, hi, q, hq, hqv⟩ | hk)
    · have hij : i ≠ j := by
        intro h
        subst h
        rw [hn] at hq
        exact Option.noConfusion hq
      exact ⟨i, by simpa using hi, q, by rwa [slotAt_set_ne _ hij], hqv⟩
    · exact ⟨j, by simpa using hj, nd, slotAt_set_self _ hj, hk.symm⟩

theorem memArr_set_replace {hash : K → Nat} {arr : Buffer K} {j : Nat} {m nd : Node K}
    (hwf : ArrWF hash arr) (hm : slotAt arr j = some m) (k : K) :
    MemArr (arr.set j (some nd)) k ↔ ((MemArr arr k ∧ k ≠ m.value) ∨ k = nd.value) := by
  have hj : j < arr.length := slotAt_lt_length hm
  constructor
  · rintro ⟨i, hi, q, hq, hqv⟩
    by_cases hij : i = j
    · subst hij
      rw [slotAt_set_self _ hj] at hq
      right
      cases hq
      exact hqv.symm
    · rw [slotAt_set_ne _ hij] at hq
      left
      refine ⟨⟨i, by simpa using hi, q, hq, hqv⟩, ?_⟩
      intro hkm
      exact hij (hwf.nodups i j q m hq hm (by rw [hqv, hkm]))
  · rintro (⟨⟨i, hi, q, hq, hqv⟩, hne⟩ | hk)
    · have hij : i ≠ j := by
        intro h
        subst h
        rw [hm] at hq
        cases hq
        exact hne hqv.symm
      exact ⟨i, by simpa using hi, q, by rwa [slotAt_set_ne _ hij], hqv⟩
    · exact ⟨j, by simpa using hj, nd, slotAt_set_self _ hj, hk.symm⟩

theorem memArr_set_remove {hash : K → Nat} {arr : Buffer K} {j : Nat} {m : Node K}
    (hwf : ArrWF hash arr) (hm : slotAt arr j = some m) (k : K) :
    MemArr (arr.set j none) k ↔ (MemArr arr k ∧ k ≠ m.value) := by
  have hj : j < arr.length := slotAt_lt_length hm
  constructor
  · rintro ⟨i, hi, q, hq, hqv⟩
    by_cases hij : i = j
    · subst hij
      rw [slotAt_set_self _ hj] at hq
      exact Option.noConfusion hq
    · rw [slotAt_set_ne _ hij] at hq
      refine ⟨⟨i, by simpa using hi, q, hq, hqv⟩, ?_⟩
      intro hkm
      exact hij (hwf.nodups i j q m hq hm (by rw [hqv, hkm]))
  · rintro ⟨⟨i, hi, q, hq, hqv⟩, hne⟩
    have hij : i ≠ j := by
      intro h
      subst h
      rw [hm] at hq
      cases hq
      exact hne hqv.symm
    exact ⟨i, by simpa using hi, q, by rwa [slotAt_set_ne _ hij], hqv⟩

theorem walk_of_entry {hash : K → Nat} {arr : Buffer K} (hwf : ArrWF hash arr)
    {j : Nat} {nd : Node K} (hj : slotAt arr j = some nd) :
    ∀ s ≤ nd.probes, ∃ m, slotAt arr ((hash nd.value + s) % arr.length) = some m ∧ s ≤ m.probes := by
  obtain ⟨hplt, hpos⟩ := hwf.consistent j nd hj
  have key : ∀ d s, s + d = nd.probes →
      ∃ m, slotAt arr ((hash nd.value + s) % arr.length) = some m ∧ s ≤ m.probes := by
    intro d
    induction d with
    | zero =>
      intro s hs0
      have hs : s = nd.probes := by omega
      subst hs
      exact ⟨nd, by rw [← hpos]; exact hj, le_refl _⟩
    | succ d ih =>
      intro s hs0
      obtain ⟨m1, hm1, hle1⟩ := ih (s + 1) (by omega)
      obtain ⟨m2, hm2, hle2⟩ := hwf.rh _ m1 hm1 (by omega)
      rw [pred_walk hwf.pos] at hm2
      exact ⟨m2, hm2, by omega⟩
  intro s hs
  exact key (nd.probes - s) s (by omega)

theorem pend_probes_lt {hash : K → Nat} {arr : Buffer K} {v : K} {p tdist : Nat}
    (hpend : ∀ s < p,
      ∃ m, slotAt arr ((hash v + s) % arr.length) = some m ∧ s ≤ m.probes)
    (htd : tdist < arr.length)
    (hempty : slotAt arr ((hash v + p + tdist) % arr.length) = none) :
    p < arr.length := by
  by_contra hge
  push_neg at hge
  have hs : p + tdist - arr.length < p := by omega
  obtain ⟨m, hm, _⟩ := hpend _ hs
  have heq : (hash v + (p + tdist - arr.length)) % arr.length
      = (hash v + p + tdist) % arr.length := by
    have h1 : hash v + p + tdist
        = (hash v + (p + tdist - arr.length)) + arr.length := by omega
    rw [h1, Nat.add_mod_right]
  rw [heq, hempty] at hm
  exact Option.noConfusion hm

theorem containsLoop_found {hash : K → Nat} {arr : Buffer K} (hwf : ArrWF hash arr)
    {j : Nat} {nd : Node K} (hj : slotAt arr j = some nd) :
    ∀ t i, i ≤ nd.probes → nd.probes < i + t →
    containsLoop hash arr nd.value i t = true := by
  intro t
  induction t with
  | zero => intro i h1 h2; omega
  | succ t ih =>
    intro i h1 h2
    obtain ⟨m, hm, hle⟩ := walk_of_entry hwf hj i h1
    simp only [containsLoop]
    rw [probeAt_eq_mod hwf.pow2, hm]
    show (if m.value = nd.value then true else containsLoop hash arr nd.value (i + 1) t) = true
    by_cases hv : m.value = nd.value
    · simp [hv]
    · rw [if_neg hv]
      have hi : i < nd.probes := by
        rcases Nat.lt_or_ge i nd.probes with h | h
        · exact h
        · exfalso
          have heq : i = nd.probes := by omega
          subst heq
          have hpos := (hwf.consistent j nd hj).2
          rw [← hpos, hj] at hm
          cases hm
          exact hv rfl
      exact ih (i + 1) (by omega) (by omega)

theorem containsLoop_imp_mem {hash : K → Nat} {arr : Buffer K} {key : K} :
    ∀ t i, containsLoop hash arr key i t = true → MemArr arr key := by
  intro t
  induction t with
  | zero => intro i h; simp [containsLoop] at h
  | succ t ih =>
    intro i h
    simp only [containsLoop] at h
    cases hm : slotAt arr (probeAt (hash key) arr.length i) with
    | none => rw [hm] at h; simp at h
    | some m =>
      rw [hm] at h
      change (if m.value = key then true else containsLoop hash arr key (i + 1) t) = true at h
      by_cases hv : m.value = key
      · exact hv ▸ memArr_of_slot hm
      · rw [if_neg hv] at h
        exact ih (i + 1) h

theorem contains_iff_mem {hash : K → Nat} {t : Table K} (hinv : Inv hash t) (key : K) :
    Table.contains hash t key = true ↔ Table.Mem t key := by
  constructor
  · intro h
    exact containsLoop_imp_mem _ _ h
  · rintro ⟨j, hj, nd, hnd, hval⟩
    subst hval
    exact containsLoop_found hinv.wf hnd (t.maxProbes + 1) 0 (Nat.zero_le _)
      (by have := hinv.probesLe j nd hnd; omega)

theorem insertNode_eval {hash : K → Nat} (fuel : Nat) (arr : Buffer K) (nd : Node K) (maxP : Nat) :
    insertNode hash (fuel + 1) arr nd maxP =
      match slotAt arr (probeAt (hash nd.value) arr.length nd.probes) with
      | none => some (arr.set (probeAt (hash nd.value) arr.length nd.probes) (some nd), max nd.probes maxP)
      | some m =>
        if m.probes < nd.probes then
          insertNode hash fuel (arr.set (probeAt (hash nd.value) arr.length nd.probes) (some nd)) m (max nd.probes maxP)
        else
          insertNode hash fuel arr { nd with probes := nd.probes + 1 } maxP := rfl

theorem insertNode_empty_step {hash : K → Nat} {arr : Buffer K} {nd : Node K} {maxP fuel : Nat}
    (hpow : ∃ k, arr.length = 2 ^ k)
    (hoff : slotAt arr ((hash nd.value + nd.probes) % arr.length) = none) :
    insertNode hash (fuel + 1) arr nd maxP
      = some (arr.set ((hash nd.value + nd.probes) % arr.length) (some nd), max nd.probes maxP) := by
  have he := probeAt_eq_mod hpow (hash nd.value) nd.probes
  rw [insertNode_eval, he, hoff]

theorem insertNode_steal_step {hash : K → Nat} {arr : Buffer K} {nd m : Node K} {maxP fuel : Nat}
    (hpow : ∃ k, arr.length = 2 ^ k)
    (hoff : slotAt arr ((hash nd.value + nd.probes) % arr.length) = some m)
    (hlt : m.probes < nd.probes) :
    insertNode hash (fuel + 1) arr nd maxP
      = insertNode hash fuel (arr.set ((hash nd.value + nd.probes) % arr.length) (some nd)) m
          (max nd.probes maxP) := by
  have he := probeAt_eq_mod hpow (hash nd.value) nd.probes
  rw [insertNode_eval, he, hoff]
  show (if m.probes < nd.probes then _ else _) = _
  rw [if_pos hlt]

theorem insertNode_advance_step {hash : K → Nat} {arr : Buffer K} {nd m : Node K} {maxP fuel : Nat}
    (hpow : ∃ k, arr.length = 2 ^ k)
    (hoff : slotAt arr ((hash nd.value + nd.probes) % arr.length) = some m)
    (hge : ¬ m.probes < nd.probes) :
    insertNode hash (fuel + 1) arr nd maxP
      = insertNode hash fuel arr { nd with probes := nd.probes + 1 } maxP := by
  have he := probeAt_eq_mod hpow (hash nd.value) nd.probes
  rw [insertNode_eval, he, hoff]
  show (if m.probes < nd.probes then _ else _) = _
  rw [if_neg hge]

theorem setWF {hash : K → Nat} {arr : Buffer K} {v : K} {p : Nat}
    (hwf : ArrWF hash arr)
    (hpend : ∀ s < p,
      ∃ m, slotAt arr ((hash v + s) % arr.length) = some m ∧ s ≤ m.probes)
    (hmem : ¬ MemArr arr v)
    (hplt : p < arr.length)
    (hcase : slotAt arr ((hash v + p) % arr.length) = none ∨
      ∃ m0, slotAt arr ((hash v + p) % arr.length) = some m0 ∧
        m0.probes < p) :
    ArrWF hash (arr.set ((hash v + p) % arr.length) (some ⟨v, p⟩)) := by
  have hpos := hwf.pos
  have hofflt : (hash v + p) % arr.length < arr.length := Nat.mod_lt _ hpos
  refine ⟨?_, ?_, ?_, ?_, ?_⟩
  · simpa using hwf.pos
  · simpa using hwf.pow2
  · intro j q hq
    rw [List.length_set]
    by_cases hj : j = (hash v + p) % arr.length
    · subst hj
      rw [slotAt_set_self _ hofflt] at hq
      cases hq
      exact ⟨hplt, rfl⟩
    · rw [slotAt_set_ne _ hj] at hq
      exact hwf.consistent j q hq
  · intro j q hq hqpos
    simp only [List.length_set] at hq ⊢
    by_cases hj : j = (hash v + p) % arr.length
    · subst hj
      rw [slotAt_set_self _ hofflt] at hq
      cases hq
      simp only [node_pr] at hqpos ⊢
      have hps : p - 1 + 1 = p := by omega
      have hidx := pred_walk hpos (hash v) (p - 1)
      rw [hps] at hidx
      obtain ⟨m1, hm1, hle1⟩ := hpend (p - 1) (by omega)
      have hne1 : (hash v + (p - 1)) % arr.length
          ≠ (hash v + p) % arr.length := by
        intro h
        have := mod_add_inj hpos (by omega) hplt h
        omega
      refine ⟨m1, ?_, by omega⟩
      rw [hidx, slotAt_set_ne _ hne1]
      exact hm1
    · rw [slotAt_set_ne _ hj] at hq
      obtain ⟨m1, hm1, hle1⟩ := hwf.rh j q hq hqpos
      by_cases hpred : (j + (arr.length - 1)) % arr.length
          = (hash v + p) % arr.length
      · rcases hcase with hnone | ⟨m0, hm0, hm0lt⟩
        · rw [hpred, hnone] at hm1
          exact Option.noConfusion hm1
        · rw [hpred, hm0] at hm1
          cases hm1
          refine ⟨⟨v, p⟩, ?_, by simp only [node_pr]; omega⟩
          rw [hpred]
          exact slotAt_set_self _ hofflt
      · refine ⟨m1, ?_, hle1⟩
        rw [slotAt_set_ne _ hpred]
        exact hm1
  · intro j1 j2 q1 q2 h1 h2 hv
    by_cases hj1 : j1 = (hash v + p) % arr.length
    · by_cases hj2 : j2 = (hash v + p) % arr.length
      · rw [hj1, hj2]
      · exfalso
        subst hj1
        rw [slotAt_set_self _ hofflt] at h1
        cases h1
        rw [slotAt_set_ne _ hj2] at h2
        simp only [node_val] at hv
        exact hmem (show MemArr arr v by rw [hv]; exact memArr_of_slot h2)
    · by_cases hj2 : j2 = (hash v + p) % arr.length
      · exfalso
        subst hj2
        rw [slotAt_set_self _ hofflt] at h2
        cases h2
        rw [slotAt_set_ne _ hj1] at h1
        simp only [node_val] at hv
        exact hmem (show MemArr arr v by rw [← hv]; exact memArr_of_slot h1)
      · rw [slotAt_set_ne _ hj1] at h1
        rw [slotAt_set_ne _ hj2] at h2
        exact hwf.nodups j1 j2 q1 q2 h1 h2 hv

theorem pend_after_steal {hash : K → Nat} {arr : Buffer K} {m : Node K} {v : K} {p : Nat}
    (hwf : ArrWF hash arr)
    (hoff : slotAt arr ((hash v + p) % arr.length) = some m)
    (hlt : m.probes < p) :
    ∀ s < m.probes + 1,
      ∃ q, slotAt (arr.set ((hash v + p) % arr.length) (some ⟨v, p⟩))
        ((hash m.value + s) % arr.length) = some q ∧ s ≤ q.probes := by
  have hpos := hwf.pos
  obtain ⟨hmplt, hmeq⟩ := hwf.consistent _ m hoff
  intro s hs
  rcases Nat.lt_or_ge s m.probes with hsm | hsm
  · obtain ⟨q, hq, hle⟩ := walk_of_entry hwf hoff s (by omega)
    have hne : (hash m.value + s) % arr.length ≠ (hash v + p) % arr.length := by
      rw [hmeq]
      intro h
      have := mod_add_inj hpos (by omega) hmplt h
      omega
    exact ⟨q, by rw [slotAt_set_ne _ hne]; exact hq, hle⟩
  · have hs' : s = m.probes := by omega
    subst hs'
    refine ⟨⟨v, p⟩, ?_, by simp only [node_pr]; omega⟩
    rw [← hmeq]
    exact slotAt_set_self _ (Nat.mod_lt _ hpos)

theorem memArr_after_steal_ne {hash : K → Nat} {arr : Buffer K} {m : Node K} {v : K} {p : Nat}
    (hwf : ArrWF hash arr)
    (hoff : slotAt arr ((hash v + p) % arr.length) = some m)
    (hmem : ¬ MemArr arr v) :
    ¬ MemArr (arr.set ((hash v + p) % arr.length) (some (⟨v, p⟩ : Node K))) m.value := by
  rw [memArr_set_replace hwf hoff]
  rintro (⟨_, hne⟩ | hv)
  · exact hne rfl
  · simp only [node_val] at hv
    exact hmem (hv ▸ memArr_of_slot hoff)

theorem insertNode_spec {hash : K → Nat} (fuel : Nat) :
    ∀ (arr : Buffer K) (nd : Node K) (maxP tdist B : Nat),
    ArrWF hash arr →
    (∀ s < nd.probes,
      ∃ m, slotAt arr ((hash nd.value + s) % arr.length) = some m ∧ s ≤ m.probes) →
    ¬ MemArr arr nd.value →
    tdist < arr.length →
    slotAt arr ((hash nd.value + nd.probes + tdist) % arr.length) = none →
    2 * tdist + 2 ≤ fuel →
    (∀ j m, slotAt arr j = some m → m.probes ≤ B) →
    ∃ arr2 maxP2, insertNode hash fuel arr nd maxP = some (arr2, maxP2) ∧
      arr2.length = arr.length ∧
      ArrWF hash arr2 ∧
      (∀ k, MemArr arr2 k ↔ (MemArr arr k ∨ k = nd.value)) ∧
      liveCount arr2 = liveCount arr + 1 ∧
      maxP ≤ maxP2 ∧
      (∀ j m, slotAt arr2 j = some m → m.probes ≤ max B maxP2) := by
  induction fuel using Nat.strong_induction_on with
  | _ fuel IH =>
  intro arr nd maxP tdist B hwf hpend hmem htd hempty hfuel hbound
  obtain _ | F := fuel
  · exact absurd hfuel (by omega)
  have hpos := hwf.pos
  have hplt : nd.probes < arr.length := pend_probes_lt hpend htd hempty
  have hofflt : (hash nd.value + nd.probes) % arr.length < arr.length := Nat.mod_lt _ hpos
  cases hoff : slotAt arr ((hash nd.value + nd.probes) % arr.length) with
  | none =>
    refine ⟨arr.set ((hash nd.value + nd.probes) % arr.length) (some nd), max nd.probes maxP,
      insertNode_empty_step hwf.pow2 hoff, List.length_set arr _ _, ?_, ?_, ?_, ?_, ?_⟩
    · exact setWF hwf hpend hmem hplt (Or.inl hoff)
    · exact fun k => memArr_set_empty hofflt hoff k
    · exact liveCount_set_some_none nd hofflt hoff
    · exact Nat.le_max_right _ _
    · intro j q hq
      by_cases hj : j = (hash nd.value + nd.probes) % arr.length
      · subst hj
        rw [slotAt_set_self _ hofflt] at hq
        cases hq
        have h1 : nd.probes ≤ max nd.probes maxP := Nat.le_max_left _ _
        omega
      · rw [slotAt_set_ne _ hj] at hq
        have h1 := hbound j q hq
        omega
  | some m =>
    have htdpos : 1 ≤ tdist := by
      rcases Nat.eq_zero_or_pos tdist with h0 | h
      · exfalso
        subst h0
        rw [Nat.add_zero] at hempty
        rw [hoff] at hempty
        exact Option.noConfusion hempty
      · exact h
    by_cases hsteal : m.probes < nd.probes
    · -- steal: displace m, then the displaced node advances once and the
      -- strong induction hypothesis applies two fuel levels down
      obtain ⟨hmplt, hmeq⟩ := hwf.consistent _ m hoff
      obtain _ | F' := F
      · exact absurd hfuel (by omega)
      have hwf1 : ArrWF hash (arr.set ((hash nd.value + nd.probes) % arr.length) (some nd)) :=
        setWF hwf hpend hmem hplt (Or.inr ⟨m, hoff, hsteal⟩)
      have hstep : insertNode hash (F' + 1)
          (arr.set ((hash nd.value + nd.probes) % arr.length) (some nd)) m (max nd.probes maxP)
          = insertNode hash F' (arr.set ((hash nd.value + nd.probes) % arr.length) (some nd))
              { m with probes := m.probes + 1 } (max nd.probes maxP) := by
        have hslot1 : slotAt (arr.set ((hash nd.value + nd.probes) % arr.length) (some nd))
            ((hash m.value + m.probes)
              % (arr.set ((hash nd.value + nd.probes) % arr.length) (some nd)).length)
            = some nd := by
          rw [List.length_set, ← hmeq]
          exact slotAt_set_self _ hofflt
        have hpow1 : ∃ k,
            (arr.set ((hash nd.value + nd.probes) % arr.length) (some nd)).length = 2 ^ k := by
          simpa using hwf.pow2
        rw [insertNode_advance_step hpow1 hslot1 (by omega)]
      have hres := IH F' (by omega)
        (arr.set ((hash nd.value + nd.probes) % arr.length) (some nd))
        { m with probes := m.probes + 1 } (max nd.probes maxP) (tdist - 1) (max B nd.probes)
        hwf1
        (by
          intro s hs
          have hs2 : s < m.probes + 1 := hs
          have hps := pend_after_steal hwf hoff hsteal s hs2
          simpa only [List.length_set] using hps)
        (memArr_after_steal_ne (m := m) hwf hoff hmem)
        (by simp only [List.length_set]; omega)
        (by
          simp only [List.length_set]
          have e1 : hash m.value + (m.probes + 1) + (tdist - 1)
              = hash m.value + m.probes + tdist := by omega
          show slotAt _ ((hash m.value + (m.probes + 1) + (tdist - 1)) % arr.length) = none
          rw [e1, ← shift_mod, ← hmeq, shift_mod]
          have hne : (hash nd.value + nd.probes + tdist) % arr.length
              ≠ (hash nd.value + nd.probes) % arr.length := by
            intro h
            have h0 : (hash nd.value + nd.probes + 0) % arr.length
                = (hash nd.value + nd.probes + tdist) % arr.length := by
              rw [Nat.add_zero]
              exact h.symm
            have := mod_add_inj hpos hpos htd h0
            omega
          rw [slotAt_set_ne _ hne]
          exact hempty)
        (by omega)
        (by
          intro j q hq
          by_cases hj : j = (hash nd.value + nd.probes) % arr.length
          · subst hj
            rw [slotAt_set_self _ hofflt] at hq
            cases hq
            exact Nat.le_max_right _ _
          · rw [slotAt_set_ne _ hj] at hq
            have h1 := hbound j q hq
            omega)
      obtain ⟨arr2, maxP2, heq2, hlen2, hwf2, hmem2, hlive2, hle2, hbound2⟩ := hres
      have hm_in : MemArr arr m.value := memArr_of_slot hoff
      refine ⟨arr2, maxP2, ?_, ?_, hwf2, ?_, ?_, ?_, ?_⟩
      · rw [insertNode_steal_step hwf.pow2 hoff hsteal, hstep]
        exact heq2
      · rw [hlen2, List.length_set]
      · intro k
        rw [hmem2 k, memArr_set_replace hwf hoff k]
        constructor
        · rintro ((⟨hk, _⟩ | hknd) | hkm)
          · exact Or.inl hk
          · exact Or.inr hknd
          · exact Or.inl (by rw [hkm]; exact hm_in)
        · rintro (hk | hknd)
          · by_cases hkm : k = m.value
            · exact Or.inr hkm
            · exact Or.inl (Or.inl ⟨hk, hkm⟩)
          · exact Or.inl (Or.inr hknd)
      · rw [hlive2, liveCount_set_some_some nd hoff]
      · exact le_trans (Nat.le_max_right _ _) hle2
      · intro j q hq
        have h1 := hbound2 j q hq
        have h2 : max nd.probes maxP ≤ maxP2 := hle2
        omega
    · -- the occupant is at least as rich: advance one step
      have hres := IH F (by omega) arr { nd with probes := nd.probes + 1 } maxP (tdist - 1) B
        hwf
        (by
          intro s hs
          have hs2 : s < nd.probes + 1 := hs
          rcases Nat.lt_or_ge s nd.probes with hsn | hsn
          · exact hpend s hsn
          · have hs' : s = nd.probes := by omega
            subst hs'
            exact ⟨m, hoff, by omega⟩)
        hmem
        (by omega)
        (by
          have e1 : hash nd.value + (nd.probes + 1) + (tdist - 1)
              = hash nd.value + nd.probes + tdist := by omega
          show slotAt _ ((hash nd.value + (nd.probes + 1) + (tdist - 1)) % arr.length) = none
          rw [e1]
          exact hempty)
        (by omega)
        hbound
      obtain ⟨arr2, maxP2, heq2, hlen2, hwf2, hmem2, hlive2, hle2, hbound2⟩ := hres
      refine ⟨arr2, maxP2, ?_, hlen2, hwf2, hmem2, hlive2, hle2, hbound2⟩
      rw [insertNode_advance_step hwf.pow2 hoff hsteal]
      exact heq2

theorem insertKey_eval {hash : K → Nat} (fuel : Nat) (arr : Buffer K) (key : K) (pc maxP : Nat) :
    insertKey hash (fuel + 1) arr key pc maxP =
      match slotAt arr (probeAt (hash key) arr.length pc) with
      | none => some (arr.set (probeAt (hash key) arr.length pc) (some ⟨key, pc⟩), max pc maxP, true)
      | some m =>
        if m.value = key then some (arr, maxP, false)
        else if m.probes < pc then
          match insertNode hash fuel (arr.set (probeAt (hash key) arr.length pc) (some ⟨key, pc⟩)) m maxP with
          | none => none
          | some (arr2, maxP2) => some (arr2, max pc maxP2, true)
        else insertKey hash fuel arr key (pc + 1) maxP := rfl

theorem insertKey_empty_step {hash : K → Nat} {arr : Buffer K} {key : K} {pc maxP fuel : Nat}
    (hpow : ∃ k, arr.length = 2 ^ k)
    (hoff : slotAt arr ((hash key + pc) % arr.length) = none) :
    insertKey hash (fuel + 1) arr key pc maxP
      = some (arr.set ((hash key + pc) % arr.length) (some ⟨key, pc⟩), max pc maxP, true) := by
  have he := probeAt_eq_mod hpow (hash key) pc
  rw [insertKey_eval, he, hoff]

theorem insertKey_dup_step {hash : K → Nat} {arr : Buffer K} {key : K} {m : Node K}
    {pc maxP fuel : Nat}
    (hpow : ∃ k, arr.length = 2 ^ k)
    (hoff : slotAt arr ((hash key + pc) % arr.length) = some m)
    (hv : m.value = key) :
    insertKey hash (fuel + 1) arr key pc maxP = some (arr, maxP, false) := by
  have he := probeAt_eq_mod hpow (hash key) pc
  rw [insertKey_eval, he, hoff]
  show (if m.value = key then _ else _) = _
  rw [if_pos hv]

theorem insertKey_steal_step {hash : K → Nat} {arr : Buffer K} {key : K} {m : Node K}
    {pc maxP fuel : Nat}
    (hpow : ∃ k, arr.length = 2 ^ k)
    (hoff : slotAt arr ((hash key + pc) % arr.length) = some m)
    (hv : ¬ m.value = key) (hlt : m.probes < pc) :
    insertKey hash (fuel + 1) arr key pc maxP =
      match insertNode hash fuel (arr.set ((hash key + pc) % arr.length) (some ⟨key, pc⟩)) m maxP with
      | none => none
      | some (arr2, maxP2) => some (arr2, max pc maxP2, true) := by
  have he := probeAt_eq_mod hpow (hash key) pc
  rw [insertKey_eval, he, hoff]
  show (if m.value = key then _ else if m.probes < pc then _ else _) = _
  rw [if_neg hv, if_pos hlt]

theorem insertKey_advance_step {hash : K → Nat} {arr : Buffer K} {key : K} {m : Node K}
    {pc maxP fuel : Nat}
    (hpow : ∃ k, arr.length = 2 ^ k)
    (hoff : slotAt arr ((hash key + pc) % arr.length) = some m)
    (hv : ¬ m.value = key) (hge : ¬ m.probes < pc) :
    insertKey hash (fuel + 1) arr key pc maxP = insertKey hash fuel arr key (pc + 1) maxP := by
  have he := probeAt_eq_mod hpow (hash key) pc
  rw [insertKey_eval, he, hoff]
  show (if m.value = key then _ else if m.probes < pc then _ else _) = _
  rw [if_neg hv, if_neg hge]

theorem insertKey_dup_spec {hash : K → Nat} {arr : Buffer K} (hwf : ArrWF hash arr)
    {jk : Nat} {ndk : Node K} (hjk : slotAt arr jk = some ndk) :
    ∀ fuel pc maxP, pc ≤ ndk.probes → ndk.probes < pc + fuel →
    insertKey hash fuel arr ndk.value pc maxP = some (arr, maxP, false) := by
  intro fuel
  induction fuel with
  | zero => intro pc maxP h1 h2; exact absurd h2 (by omega)
  | succ fuel ih =>
    intro pc maxP h1 h2
    obtain ⟨m, hm, hle⟩ := walk_of_entry hwf hjk pc h1
    by_cases hv : m.value = ndk.value
    · exact insertKey_dup_step hwf.pow2 hm hv
    · have hpc : pc < ndk.probes := by
        rcases Nat.lt_or_ge pc ndk.probes with h | h
        · exact h
        · exfalso
          have heq : pc = ndk.probes := by omega
          subst heq
          have hpos2 := (hwf.consistent jk ndk hjk).2
          rw [← hpos2, hjk] at hm
          cases hm
          exact hv rfl
      rw [insertKey_advance_step hwf.pow2 hm hv (by omega)]
      exact ih (pc + 1) maxP (by omega) (by omega)

theorem insertKey_new_spec {hash : K → Nat} {arr : Buffer K} {key : K} {maxP B : Nat}
    (hwf : ArrWF hash arr) (hmem : ¬ MemArr arr key)
    (hbound : ∀ j m, slotAt arr j = some m → m.probes ≤ B) :
    ∀ (fuel pc tdist : Nat),
    (∀ s < pc, ∃ m, slotAt arr ((hash key + s) % arr.length) = some m ∧ s ≤ m.probes) →
    tdist < arr.length →
    slotAt arr ((hash key + pc + tdist) % arr.length) = none →
    2 * tdist + 3 ≤ fuel →
    ∃ arr2 maxP2, insertKey hash fuel arr key pc maxP = some (arr2, maxP2, true) ∧
      arr2.length = arr.length ∧
      ArrWF hash arr2 ∧
      (∀ k, MemArr arr2 k ↔ (MemArr arr k ∨ k = key)) ∧
      liveCount arr2 = liveCount arr + 1 ∧
      maxP ≤ maxP2 ∧
      (∀ j m, slotAt arr2 j = some m → m.probes ≤ max B maxP2) := by
  intro fuel
  induction fuel with
  | zero => intro pc tdist _ _ _ hfuel; exact absurd hfuel (by omega)
  | succ fuel ih =>
    intro pc tdist hist htd hempty hfuel
    have hpos := hwf.pos
    have hplt : pc < arr.length := pend_probes_lt hist htd hempty
    have hofflt : (hash key + pc) % arr.length < arr.length := Nat.mod_lt _ hpos
    cases hoff : slotAt arr ((hash key + pc) % arr.length) with
    | none =>
      refine ⟨arr.set ((hash key + pc) % arr.length) (some ⟨key, pc⟩), max pc maxP,
        insertKey_empty_step hwf.pow2 hoff, List.length_set arr _ _, ?_, ?_, ?_, ?_, ?_⟩
      · exact setWF hwf hist hmem hplt (Or.inl hoff)
      · intro k
        exact memArr_set_empty hofflt hoff k
      · exact liveCount_set_some_none _ hofflt hoff
      · exact Nat.le_max_right _ _
      · intro j q hq
        by_cases hj : j = (hash key + pc) % arr.length
        · subst hj
          rw [slotAt_set_self _ hofflt] at hq
          cases hq
          simp only [node_pr]
          have h1 : pc ≤ max pc maxP := Nat.le_max_left _ _
          omega
        · rw [slotAt_set_ne _ hj] at hq
          have h1 := hbound j q hq
          omega
    | some m =>
      have htdpos : 1 ≤ tdist := by
        rcases Nat.eq_zero_or_pos tdist with h0 | h
        · exfalso
          subst h0
          rw [Nat.add_zero] at hempty
          rw [hoff] at hempty
          exact Option.noConfusion hempty
        · exact h
      by_cases hv : m.value = key
      · exact absurd (hv ▸ memArr_of_slot hoff) hmem
      · by_cases hsteal : m.probes < pc
        · obtain ⟨hmplt, hmeq⟩ := hwf.consistent _ m hoff
          have hwf1 : ArrWF hash
              (arr.set ((hash key + pc) % arr.length) (some ⟨key, pc⟩)) :=
            setWF hwf hist hmem hplt (Or.inr ⟨m, hoff, hsteal⟩)
          have hres := insertNode_spec fuel
            (arr.set ((hash key + pc) % arr.length) (some (⟨key, pc⟩ : Node K)))
            m maxP tdist (max B pc)
            hwf1
            (by
              intro s hs
              have hs2 : s < m.probes + 1 := by omega
              have hps := pend_after_steal hwf hoff hsteal s hs2
              simpa only [List.length_set] using hps)
            (memArr_after_steal_ne (m := m) hwf hoff hmem)
            (by simp only [List.length_set]; omega)
            (by
              simp only [List.length_set]
              show slotAt _ ((hash m.value + m.probes + tdist) % arr.length) = none
              rw [← shift_mod, ← hmeq, shift_mod]
              have hne : (hash key + pc + tdist) % arr.length
                  ≠ (hash key + pc) % arr.length := by
                intro h
                have h0 : (hash key + pc + 0) % arr.length
                    = (hash key + pc + tdist) % arr.length := by
                  rw [Nat.add_zero]
                  exact h.symm
                have := mod_add_inj hpos hpos htd h0
                omega
              rw [slotAt_set_ne _ hne]
              exact hempty)
            (by omega)
            (by
              intro j q hq
              by_cases hj : j = (hash key + pc) % arr.length
              · subst hj
                rw [slotAt_set_self _ hofflt] at hq
                cases hq
                simp only [node_pr]
                omega
              · rw [slotAt_set_ne _ hj] at hq
                have h1 := hbound j q hq
                omega)
          obtain ⟨arr2, maxP2, heq2, hlen2, hwf2, hmem2, hlive2, hle2, hbound2⟩ := hres
          have hm_in : MemArr arr m.value := memArr_of_slot hoff
          refine ⟨arr2, max pc maxP2, ?_, ?_, hwf2, ?_, ?_, ?_, ?_⟩
          · rw [insertKey_steal_step hwf.pow2 hoff hv hsteal, heq2]
          · rw [hlen2, List.length_set]
          · intro k
            rw [hmem2 k, memArr_set_replace hwf hoff k]
            simp only [node_val]
            constructor
            · rintro ((⟨hk, _⟩ | hknd) | hkm)
              · exact Or.inl hk
              · exact Or.inr hknd
              · exact Or.inl (by rw [hkm]; exact hm_in)
            · rintro (hk | hknd)
              · by_cases hkm : k = m.value
                · exact Or.inr hkm
                · exact Or.inl (Or.inl ⟨hk, hkm⟩)
              · exact Or.inl (Or.inr hknd)
          · rw [hlive2, liveCount_set_some_some _ hoff]
          · exact le_trans hle2 (Nat.le_max_right _ _)
          · intro j q hq
            have h1 := hbound2 j q hq
            have h2 : maxP ≤ maxP2 := hle2
            omega
        · have hres := ih (pc + 1) (tdist - 1)
            (by
              intro s hs
              rcases Nat.lt_or_ge s pc with hsn | hsn
              · exact hist s hsn
              · have hs' : s = pc := by omega
                subst hs'
                exact ⟨m, hoff, by omega⟩)
            (by omega)
            (by
              have e1 : hash key + (pc + 1) + (tdist - 1) = hash key + pc + tdist := by omega
              rw [e1]
              exact hempty)
            (by omega)
          obtain ⟨arr2, maxP2, heq2, hlen2, hwf2, hmem2, hlive2, hle2, hbound2⟩ := hres
          refine ⟨arr2, maxP2, ?_, hlen2, hwf2, hmem2, hlive2, hle2, hbound2⟩
          rw [insertKey_advance_step hwf.pow2 hoff hv hsteal]
          exact heq2

theorem mod_congr_add {c : Nat} {x y : Nat} (h : x % c = y % c) (a : Nat) :
    (x + a) % c = (y + a) % c := by
  rw [Nat.add_mod, h, ← Nat.add_mod]

theorem walk_ne {c : Nat} (hc : 0 < c) (x a b : Nat) (ha : a < c) (hb : b < c)
    (hab : a ≠ b) : (x + a) % c ≠ (x + b) % c :=
  fun h => hab (mod_add_inj hc ha hb h)

theorem memArr_shift {arr : Buffer K} {off nxt : Nat} {m w : Node K}
    (hoffn : slotAt arr off = none) (hnxt : slotAt arr nxt = some m)
    (hne : off ≠ nxt) (hofflt : off < arr.length) (hwv : w.value = m.value) (k : K) :
    MemArr ((arr.set off (some w)).set nxt none) k ↔ MemArr arr k := by
  have hnxtlt : nxt < arr.length := slotAt_lt_length hnxt
  constructor
  · rintro ⟨j, hj, q, hq, hqv⟩
    by_cases hjn : j = nxt
    · subst hjn
      rw [slotAt_set_self _ (by simpa using hnxtlt)] at hq
      exact Option.noConfusion hq
    · rw [slotAt_set_ne _ hjn] at hq
      by_cases hjo : j = off
      · subst hjo
        rw [slotAt_set_self _ hofflt] at hq
        cases hq
        exact ⟨nxt, hnxtlt, m, hnxt, by rw [← hqv, hwv]⟩
      · rw [slotAt_set_ne _ hjo] at hq
        exact ⟨j, slotAt_lt_length hq, q, hq, hqv⟩
  · rintro ⟨j, hj, q, hq, hqv⟩
    by_cases hjn : j = nxt
    · subst hjn
      rw [hnxt] at hq
      cases hq
      refine ⟨off, by simpa using hofflt, w, ?_, by rw [hwv]; exact hqv⟩
      rw [slotAt_set_ne _ hne, slotAt_set_self _ hofflt]
    · have hjo : j ≠ off := by
        intro hEq
        subst hEq
        rw [hoffn] at hq
        exact Option.noConfusion hq
      refine ⟨j, by simpa using hj, q, ?_, hqv⟩
      rw [slotAt_set_ne _ hjn, slotAt_set_ne _ hjo]
      exact hq

theorem liveCount_shift {arr : Buffer K} {off nxt : Nat} {m w : Node K}
    (hoffn : slotAt arr off = none) (hnxt : slotAt arr nxt = some m)
    (hne : off ≠ nxt) (hofflt : off < arr.length) :
    liveCount ((arr.set off (some w)).set nxt none) = liveCount arr := by
  have h1 : liveCount (arr.set off (some w)) = liveCount arr + 1 :=
    liveCount_set_some_none w hofflt hoffn
  have h2 : slotAt (arr.set off (some w)) nxt = some m := by
    rw [slotAt_set_ne _ (Ne.symm hne)]
    exact hnxt
  have h3 := liveCount_set_none_some h2
  omega

theorem fillSlot_eval (fuel : Nat) (arr : Buffer K) (h i : Nat) :
    fillSlot (fuel + 1) arr h i =
      match slotAt arr (probeAt h arr.length (i + 1)) with
      | some m =>
        if m.probes ≠ 0 then
          fillSlot fuel ((arr.set (probeAt h arr.length i)
            (some { m with probes := m.probes - 1 })).set (probeAt h arr.length (i + 1)) none) h (i + 1)
        else some arr
      | none => some arr := rfl

theorem fillSlot_stop_none {arr : Buffer K} {h i fuel : Nat}
    (hpow : ∃ k, arr.length = 2 ^ k)
    (hnxt : slotAt arr ((h + i + 1) % arr.length) = none) :
    fillSlot (fuel + 1) arr h i = some arr := by
  have he2 := probeAt_eq_mod hpow h (i + 1)
  rw [fillSlot_eval, he2, ← Nat.add_assoc h i 1, hnxt]

theorem fillSlot_stop_zero {arr : Buffer K} {h i fuel : Nat} {m : Node K}
    (hpow : ∃ k, arr.length = 2 ^ k)
    (hnxt : slotAt arr ((h + i + 1) % arr.length) = some m)
    (hz : m.probes = 0) :
    fillSlot (fuel + 1) arr h i = some arr := by
  have he2 := probeAt_eq_mod hpow h (i + 1)
  rw [fillSlot_eval, he2, ← Nat.add_assoc h i 1, hnxt]
  show (if m.probes ≠ 0 then _ else _) = _
  rw [if_neg (by omega)]

theorem fillSlot_move_step {arr : Buffer K} {h i fuel : Nat} {m : Node K}
    (hpow : ∃ k, arr.length = 2 ^ k)
    (hnxt : slotAt arr ((h + i + 1) % arr.length) = some m)
    (hz : m.probes ≠ 0) :
    fillSlot (fuel + 1) arr h i
      = fillSlot fuel ((arr.set ((h + i) % arr.length)
          (some { m with probes := m.probes - 1 })).set ((h + i + 1) % arr.length) none)
          h (i + 1) := by
  have he1 := probeAt_eq_mod hpow h i
  have he2 := probeAt_eq_mod hpow h (i + 1)
  rw [fillSlot_eval, he1, he2, ← Nat.add_assoc h i 1, hnxt]
  show (if m.probes ≠ 0 then _ else _) = _
  rw [if_pos hz]

theorem fillSlot_spec {hash : K → Nat} (fuel : Nat) :
    ∀ (arr : Buffer K) (h i dstop B : Nat),
    0 < arr.length →
    (∃ k, arr.length = 2 ^ k) →
    2 < arr.length →
    slotAt arr ((h + i) % arr.length) = none →
    (∀ j nd, slotAt arr j = some nd →
      nd.probes < arr.length ∧ j = (hash nd.value + nd.probes) % arr.length) →
    (∀ j nd, slotAt arr j = some nd → 0 < nd.probes → j ≠ (h + i + 1) % arr.length →
      ∃ m, slotAt arr ((j + (arr.length - 1)) % arr.length) = some m ∧ nd.probes ≤ m.probes + 1) →
    (∀ nd, slotAt arr ((h + i + 1) % arr.length) = some nd → 0 < nd.probes →
      nd.probes ≤ 1 ∨ ∃ m, slotAt arr ((h + i + (arr.length - 1)) % arr.length) = some m ∧
        nd.probes ≤ m.probes + 2) →
    (∀ j1 j2 nd1 nd2, slotAt arr j1 = some nd1 → slotAt arr j2 = some nd2 →
      nd1.value = nd2.value → j1 = j2) →
    (∀ j nd, slotAt arr j = some nd → nd.probes ≤ B) →
    slotAt arr ((h + i + 1 + dstop) % arr.length) = none →
    dstop + 1 < arr.length →
    dstop + 1 ≤ fuel →
    ∃ arr2, fillSlot fuel arr h i = some arr2 ∧
      arr2.length = arr.length ∧
      ArrWF hash arr2 ∧
      (∀ k, MemArr arr2 k ↔ MemArr arr k) ∧
      liveCount arr2 = liveCount arr ∧
      (∀ j nd, slotAt arr2 j = some nd → nd.probes ≤ B) := by
  induction fuel with
  | zero =>
    intro arr h i dstop B _ _ _ _ _ _ _ _ _ _ _ hfuel
    exact absurd hfuel (by omega)
  | succ fuel ih =>
    intro arr h i dstop B hp0 hpow hc3 hole hcons hrh hbr hnd hbound hstop hdlt hfuel
    have hofflt : (h + i) % arr.length < arr.length := Nat.mod_lt _ hp0
    have hnxtlt : (h + i + 1) % arr.length < arr.length := Nat.mod_lt _ hp0
    have hd01 : (h + i) % arr.length ≠ (h + i + 1) % arr.length :=
      walk_ne hp0 (h + i) 0 1 (by omega) (by omega) (by omega)
    cases hnxt : slotAt arr ((h + i + 1) % arr.length) with
    | none =>
      refine ⟨arr, fillSlot_stop_none hpow hnxt, rfl, ⟨hp0, hpow, hcons, ?_, hnd⟩,
        fun k => Iff.rfl, rfl, hbound⟩
      intro j nd hj hjpos
      by_cases hcj : j = (h + i + 1) % arr.length
      · rw [hcj, hnxt] at hj
        exact Option.noConfusion hj
      · exact hrh j nd hj hjpos hcj
    | some m =>
      by_cases hz : m.probes = 0
      · refine ⟨arr, fillSlot_stop_zero hpow hnxt hz, rfl, ⟨hp0, hpow, hcons, ?_, hnd⟩,
          fun k => Iff.rfl, rfl, hbound⟩
        intro j nd hj hjpos
        by_cases hcj : j = (h + i + 1) % arr.length
        · rw [hcj, hnxt] at hj
          cases hj
          omega
        · exact hrh j nd hj hjpos hcj
      · have hmpos : 0 < m.probes := Nat.pos_of_ne_zero hz
        obtain ⟨hmplt, hmeq⟩ := hcons _ m hnxt
        have hdpos : 1 ≤ dstop := by
          rcases Nat.eq_zero_or_pos dstop with h0 | hp
          · exfalso
            rw [h0, Nat.add_zero] at hstop
            rw [hstop] at hnxt
            exact Option.noConfusion hnxt
          · exact hp
        set A := (arr.set ((h + i) % arr.length)
          (some { m with probes := m.probes - 1 })).set ((h + i + 1) % arr.length) none with hA
        have hlenA : A.length = arr.length := by
          rw [hA]
          simp [List.length_set]
        have hAnxt : slotAt A ((h + i + 1) % arr.length) = none := by
          rw [hA]
          exact slotAt_set_self _ (by simp only [List.length_set]; exact hnxtlt)
        have hAoff : slotAt A ((h + i) % arr.length)
            = some ⟨m.value, m.probes - 1⟩ := by
          rw [hA, slotAt_set_ne _ hd01]
          exact slotAt_set_self _ hofflt
        have hAother : ∀ j, j ≠ (h + i) % arr.length → j ≠ (h + i + 1) % arr.length →
            slotAt A j = slotAt arr j := by
          intro j hj1 hj2
          rw [hA, slotAt_set_ne _ hj2, slotAt_set_ne _ hj1]
        have hoffpos : (h + i) % arr.length = (hash m.value + (m.probes - 1)) % arr.length := by
          have h2 := mod_congr_add hmeq (arr.length - 1)
          have e1 : h + i + 1 + (arr.length - 1) = (h + i) + arr.length := by omega
          have e2 : hash m.value + m.probes + (arr.length - 1)
              = (hash m.value + (m.probes - 1)) + arr.length := by omega
          rw [e1, e2, Nat.add_mod_right, Nat.add_mod_right] at h2
          exact h2
        have hres := ih A h (i + 1) (dstop - 1) B
          (by rw [hlenA]; exact hp0)
          (by rw [hlenA]; exact hpow)
          (by rw [hlenA]; exact hc3)
          (by rw [hlenA]; exact hAnxt)
          (by
            rw [hlenA]
            intro j nd hj
            by_cases hcn : j = (h + i + 1) % arr.length
            · rw [hcn, hAnxt] at hj
              exact Option.noConfusion hj
            · by_cases hco : j = (h + i) % arr.length
              · rw [hco, hAoff] at hj
                cases hj
                simp only [node_val, node_pr]
                exact ⟨by omega, by rw [hco]; exact hoffpos⟩
              · rw [hAother j hco hcn] at hj
                exact hcons j nd hj)
          (by
            rw [hlenA]
            intro j nd hj hjpos hjne
            by_cases hcn : j = (h + i + 1) % arr.length
            · rw [hcn, hAnxt] at hj
              exact Option.noConfusion hj
            · by_cases hco : j = (h + i) % arr.length
              · rw [hco, hAoff] at hj
                cases hj
                simp only [node_pr] at hjpos ⊢
                rcases hbr m hnxt hmpos with hle1 | ⟨w, hw, hwle⟩
                · omega
                · refine ⟨w, ?_, by omega⟩
                  rw [hco, shift_mod]
                  have hne1 : (h + i + (arr.length - 1)) % arr.length
                      ≠ (h + i) % arr.length :=
                    walk_ne hp0 (h + i) (arr.length - 1) 0 (by omega) (by omega) (by omega)
                  have hne2 : (h + i + (arr.length - 1)) % arr.length
                      ≠ (h + i + 1) % arr.length :=
                    walk_ne hp0 (h + i) (arr.length - 1) 1 (by omega) (by omega) (by omega)
                  rw [hAother _ hne1 hne2]
                  exact hw
              · have hjA := hj
                rw [hAother j hco hcn] at hjA
                have hjlt : j < arr.length := slotAt_lt_length hjA
                have hpredoff : (j + (arr.length - 1)) % arr.length
                    ≠ (h + i) % arr.length := by
                  intro hEq
                  apply hcn
                  have h2 := mod_congr_add hEq 1
                  have e1 : j + (arr.length - 1) + 1 = j + arr.length := by omega
                  rw [e1, Nat.add_mod_right, Nat.mod_eq_of_lt hjlt] at h2
                  exact h2
                have hprednxt : (j + (arr.length - 1)) % arr.length
                    ≠ (h + i + 1) % arr.length := by
                  intro hEq
                  apply hjne
                  have h2 := mod_congr_add hEq 1
                  have e1 : j + (arr.length - 1) + 1 = j + arr.length := by omega
                  rw [e1, Nat.add_mod_right, Nat.mod_eq_of_lt hjlt] at h2
                  exact h2
                obtain ⟨w, hw, hwle⟩ := hrh j nd hjA hjpos hcn
                refine ⟨w, ?_, hwle⟩
                rw [hAother _ hpredoff hprednxt]
                exact hw)
          (by
            rw [hlenA]
            intro nd hnd2 hndpos
            have hP2off : (h + i + 2) % arr.length ≠ (h + i) % arr.length :=
              walk_ne hp0 (h + i) 2 0 (by omega) (by omega) (by omega)
            have hP2nxt : (h + i + 2) % arr.length ≠ (h + i + 1) % arr.length :=
              walk_ne hp0 (h + i) 2 1 (by omega) (by omega) (by omega)
            have hv2 : slotAt arr ((h + i + 2) % arr.length) = some nd := by
              rw [← hAother _ hP2off hP2nxt]
              exact hnd2
            obtain ⟨w, hw, hwle⟩ := hrh _ nd hv2 hndpos hP2nxt
            have e1 : (h + i + 2) % arr.length + (arr.length - 1)
                = ((h + i + 2) % arr.length + (arr.length - 1)) := rfl
            have hpredeq : ((h + i + 2) % arr.length + (arr.length - 1)) % arr.length
                = (h + i + 1) % arr.length := by
              rw [shift_mod]
              have e2 : h + i + 2 + (arr.length - 1) = (h + i + 1) + arr.length := by omega
              rw [e2, Nat.add_mod_right]
            rw [hpredeq, hnxt] at hw
            cases hw
            right
            refine ⟨⟨m.value, m.probes - 1⟩, ?_, by simp only [node_pr]; omega⟩
            have e3 : h + (i + 1) + (arr.length - 1) = (h + i) + arr.length := by omega
            rw [e3, Nat.add_mod_right]
            exact hAoff)
          (by
            intro j1 j2 q1 q2 h1 h2 hv
            by_cases h1n : j1 = (h + i + 1) % arr.length
            · rw [h1n, hAnxt] at h1
              exact Option.noConfusion h1
            · by_cases h2n : j2 = (h + i + 1) % arr.length
              · rw [h2n, hAnxt] at h2
                exact Option.noConfusion h2
              · by_cases h1o : j1 = (h + i) % arr.length
                · by_cases h2o : j2 = (h + i) % arr.length
                  · rw [h1o, h2o]
                  · exfalso
                    rw [h1o, hAoff] at h1
                    cases h1
                    rw [hAother j2 h2o h2n] at h2
                    simp only [node_val] at hv
                    have := hnd j2 ((h + i + 1) % arr.length) q2 m h2 hnxt (by rw [← hv])
                    exact h2n this
                · by_cases h2o : j2 = (h + i) % arr.length
                  · exfalso
                    rw [h2o, hAoff] at h2
                    cases h2
                    rw [hAother j1 h1o h1n] at h1
                    simp only [node_val] at hv
                    have := hnd j1 ((h + i + 1) % arr.length) q1 m h1 hnxt (by rw [hv])
                    exact h1n this
                  · rw [hAother j1 h1o h1n] at h1
                    rw [hAother j2 h2o h2n] at h2
                    exact hnd j1 j2 q1 q2 h1 h2 hv)
          (by
            intro j q hq
            by_cases hcn : j = (h + i + 1) % arr.length
            · rw [hcn, hAnxt] at hq
              exact Option.noConfusion hq
            · by_cases hco : j = (h + i) % arr.length
              · rw [hco, hAoff] at hq
                cases hq
                simp only [node_pr]
                have := hbound _ m hnxt
                omega
              · rw [hAother j hco hcn] at hq
                exact hbound j q hq)
          (by
            rw [hlenA]
            have e1 : h + (i + 1) + 1 + (dstop - 1) = h + i + 1 + dstop := by omega
            show slotAt A ((h + (i + 1) + 1 + (dstop - 1)) % arr.length) = none
            rw [e1]
            have hne1 : (h + i + 1 + dstop) % arr.length ≠ (h + i) % arr.length := by
              have e2 : h + i + 1 + dstop = h + i + (1 + dstop) := by omega
              rw [e2]
              exact walk_ne hp0 (h + i) (1 + dstop) 0 (by omega) (by omega) (by omega)
            have hne2 : (h + i + 1 + dstop) % arr.length ≠ (h + i + 1) % arr.length := by
              have e2 : h + i + 1 + dstop = h + i + (1 + dstop) := by omega
              rw [e2]
              exact walk_ne hp0 (h + i) (1 + dstop) 1 (by omega) (by omega) (by omega)
            rw [hAother _ hne1 hne2]
            exact hstop)
          (by rw [hlenA]; omega)
          (by omega)
        obtain ⟨arr2, heq2, hlen2, hwf2, hmem2, hlive2, hbound2⟩ := hres
        refine ⟨arr2, ?_, hlen2.trans hlenA, hwf2, ?_, ?_, hbound2⟩
        · rw [fillSlot_move_step hpow hnxt hz, ← hA]
          exact heq2
        · intro k
          refine (hmem2 k).trans ?_
          rw [hA]
          exact memArr_shift (w := { m with probes := m.probes - 1 }) hole hnxt hd01 hofflt rfl k
        · rw [hlive2, hA]
          exact liveCount_shift hole hnxt hd01 hofflt

theorem eraseLoop_eval {hash : K → Nat} (arr : Buffer K) (key : K) (i t : Nat) :
    eraseLoop hash arr key i (t + 1) =
      match slotAt arr (probeAt (hash key) arr.length i) with
      | none => some (arr, false)
      | some m =>
        if m.value = key then
          match fillSlot (arr.length + 1) (arr.set (probeAt (hash key) arr.length i) none)
              (hash key) i with
          | none => none
          | some arr2 => some (arr2, true)
        else eraseLoop hash arr key (i + 1) t := rfl

theorem eraseLoop_none_step {hash : K → Nat} {arr : Buffer K} {key : K} {i t : Nat}
    (hpow : ∃ k, arr.length = 2 ^ k)
    (hoff : slotAt arr ((hash key + i) % arr.length) = none) :
    eraseLoop hash arr key i (t + 1) = some (arr, false) := by
  rw [eraseLoop_eval, probeAt_eq_mod hpow, hoff]

theorem eraseLoop_found_step {hash : K → Nat} {arr : Buffer K} {key : K} {m : Node K} {i t : Nat}
    (hpow : ∃ k, arr.length = 2 ^ k)
    (hoff : slotAt arr ((hash key + i) % arr.length) = some m)
    (hv : m.value = key) :
    eraseLoop hash arr key i (t + 1)
      = match fillSlot (arr.length + 1) (arr.set ((hash key + i) % arr.length) none)
            (hash key) i with
        | none => none
        | some arr2 => some (arr2, true) := by
  rw [eraseLoop_eval, probeAt_eq_mod hpow, hoff]
  show (if m.value = key then _ else _) = _
  rw [if_pos hv]

theorem eraseLoop_advance_step {hash : K → Nat} {arr : Buffer K} {key : K} {m : Node K} {i t : Nat}
    (hpow : ∃ k, arr.length = 2 ^ k)
    (hoff : slotAt arr ((hash key + i) % arr.length) = some m)
    (hv : ¬ m.value = key) :
    eraseLoop hash arr key i (t + 1) = eraseLoop hash arr key (i + 1) t := by
  rw [eraseLoop_eval, probeAt_eq_mod hpow, hoff]
  show (if m.value = key then _ else _) = _
  rw [if_neg hv]

theorem eraseLoop_notmem {hash : K → Nat} {arr : Buffer K} {key : K}
    (hpow : ∃ k, arr.length = 2 ^ k) (hmem : ¬ MemArr arr key) :
    ∀ t i, eraseLoop hash arr key i t = some (arr, false) := by
  intro t
  induction t with
  | zero => intro i; rfl
  | succ t ih =>
    intro i
    cases hoff : slotAt arr ((hash key + i) % arr.length) with
    | none => exact eraseLoop_none_step hpow hoff
    | some m =>
      by_cases hv : m.value = key
      · exact absurd (hv ▸ memArr_of_slot hoff) hmem
      · rw [eraseLoop_advance_step hpow hoff hv]
        exact ih (i + 1)

theorem eraseLoop_found {hash : K → Nat} {arr : Buffer K} (hwf : ArrWF hash arr)
    (hc3 : 2 < arr.length) (hlive : liveCount arr < arr.length)
    {jk : Nat} {ndk : Node K} (hjk : slotAt arr jk = some ndk) {B : Nat}
    (hbound : ∀ j nd, slotAt arr j = some nd → nd.probes ≤ B) :
    ∀ t i, i ≤ ndk.probes → ndk.probes < i + t →
    ∃ arr2, eraseLoop hash arr ndk.value i t = some (arr2, true) ∧
      arr2.length = arr.length ∧ ArrWF hash arr2 ∧
      (∀ k, MemArr arr2 k ↔ (MemArr arr k ∧ k ≠ ndk.value)) ∧
      liveCount arr2 + 1 = liveCount arr ∧
      (∀ j nd, slotAt arr2 j = some nd → nd.probes ≤ B) := by
  intro t
  induction t with
  | zero => intro i h1 h2; exact absurd h2 (by omega)
  | succ t ih =>
    intro i h1 h2
    have hpos := hwf.pos
    obtain ⟨m, hm, hle⟩ := walk_of_entry hwf hjk i h1
    by_cases hv : m.value = ndk.value
    · -- the key is found at this scan step; erase and run the backward shift
      have hik : (hash ndk.value + i) % arr.length = jk :=
        hwf.nodups _ jk m ndk hm hjk hv
      have hjklt : jk < arr.length := slotAt_lt_length hjk
      have hholelt : (hash ndk.value + i) % arr.length < arr.length := Nat.mod_lt _ hpos
      have hholek : slotAt arr ((hash ndk.value + i) % arr.length) = some ndk := by
        rw [hik]
        exact hjk
      set A0 := arr.set ((hash ndk.value + i) % arr.length) none with hA0
      have hlenA0 : A0.length = arr.length := by
        rw [hA0]
        exact List.length_set arr _ _
      have hA0hole : slotAt A0 ((hash ndk.value + i) % arr.length) = none := by
        rw [hA0]
        exact slotAt_set_self _ hholelt
      have hA0other : ∀ j, j ≠ (hash ndk.value + i) % arr.length →
          slotAt A0 j = slotAt arr j := by
        intro j hj
        rw [hA0, slotAt_set_ne _ hj]
      obtain ⟨e, helt, hes⟩ := exists_none_of_liveCount_lt hlive
      have henk : e ≠ (hash ndk.value + i) % arr.length := by
        intro hEq
        rw [← hEq, hes] at hholek
        exact Option.noConfusion hholek
      obtain ⟨dst, hdlt, hdeq⟩ := exists_step_to hpos (hash ndk.value + i + 1) e helt
      have hdne : dst + 1 < arr.length := by
        rcases Nat.lt_or_ge (dst + 1) arr.length with hcase | hcase
        · exact hcase
        · exfalso
          have hdd : dst = arr.length - 1 := by omega
          apply henk
          rw [← hdeq, hdd]
          have e1 : hash ndk.value + i + 1 + (arr.length - 1)
              = (hash ndk.value + i) + arr.length := by omega
          rw [e1, Nat.add_mod_right]
      have hres := fillSlot_spec (arr.length + 1) A0 (hash ndk.value) i dst B
        (by rw [hlenA0]; exact hpos)
        (by rw [hlenA0]; exact hwf.pow2)
        (by rw [hlenA0]; exact hc3)
        (by rw [hlenA0]; exact hA0hole)
        (by
          rw [hlenA0]
          intro j nd hj
          by_cases hch : j = (hash ndk.value + i) % arr.length
          · rw [hch, hA0hole] at hj
            exact Option.noConfusion hj
          · rw [hA0other j hch] at hj
            exact hwf.consistent j nd hj)
        (by
          rw [hlenA0]
          intro j nd hj hjpos hjne
          by_cases hch : j = (hash ndk.value + i) % arr.length
          · rw [hch, hA0hole] at hj
            exact Option.noConfusion hj
          · have hjA := hj
            rw [hA0other j hch] at hjA
            have hjlt : j < arr.length := slotAt_lt_length hjA
            obtain ⟨w, hw, hwle⟩ := hwf.rh j nd hjA hjpos
            have hpredhole : (j + (arr.length - 1)) % arr.length
                ≠ (hash ndk.value + i) % arr.length := by
              intro hEq
              apply hjne
              have h2 := mod_congr_add hEq 1
              have e1 : j + (arr.length - 1) + 1 = j + arr.length := by omega
              rw [e1, Nat.add_mod_right, Nat.mod_eq_of_lt hjlt] at h2
              exact h2
            refine ⟨w, ?_, hwle⟩
            rw [hA0other _ hpredhole]
            exact hw)
        (by
          rw [hlenA0]
          intro nd hnd2 hndpos
          have hexoff : (hash ndk.value + i + 1) % arr.length
              ≠ (hash ndk.value + i) % arr.length :=
            walk_ne hpos (hash ndk.value + i) 1 0 (by omega) (by omega) (by omega)
          have hv2 : slotAt arr ((hash ndk.value + i + 1) % arr.length) = some nd := by
            rw [← hA0other _ hexoff]
            exact hnd2
          obtain ⟨w, hw, hwle⟩ := hwf.rh _ nd hv2 hndpos
          have hpredeq : ((hash ndk.value + i + 1) % arr.length + (arr.length - 1))
              % arr.length = (hash ndk.value + i) % arr.length := by
            rw [shift_mod]
            have e2 : hash ndk.value + i + 1 + (arr.length - 1)
                = (hash ndk.value + i) + arr.length := by omega
            rw [e2, Nat.add_mod_right]
          rw [hpredeq, hholek] at hw
          cases hw
          by_cases hz : ndk.probes = 0
          · left
            omega
          · right
            obtain ⟨w2, hw2, hwle2⟩ := hwf.rh _ ndk hholek (by omega)
            have hpred2 : ((hash ndk.value + i) % arr.length + (arr.length - 1))
                % arr.length = (hash ndk.value + i + (arr.length - 1)) % arr.length :=
              shift_mod _ _ _
            rw [hpred2] at hw2
            have hpredne : (hash ndk.value + i + (arr.length - 1)) % arr.length
                ≠ (hash ndk.value + i) % arr.length :=
              walk_ne hpos (hash ndk.value + i) (arr.length - 1) 0
                (by omega) (by omega) (by omega)
            refine ⟨w2, ?_, by omega⟩
            rw [hA0other _ hpredne]
            exact hw2)
        (by
          intro j1 j2 q1 q2 hq1 hq2 hvv
          by_cases hc1 : j1 = (hash ndk.value + i) % arr.length
          · rw [hc1, hA0hole] at hq1
            exact Option.noConfusion hq1
          · by_cases hc2 : j2 = (hash ndk.value + i) % arr.length
            · rw [hc2, hA0hole] at hq2
              exact Option.noConfusion hq2
            · rw [hA0other j1 hc1] at hq1
              rw [hA0other j2 hc2] at hq2
              exact hwf.nodups j1 j2 q1 q2 hq1 hq2 hvv)
        (by
          intro j q hq
          by_cases hch : j = (hash ndk.value + i) % arr.length
          · rw [hch, hA0hole] at hq
            exact Option.noConfusion hq
          · rw [hA0other j hch] at hq
            exact hbound j q hq)
        (by
          rw [hlenA0]
          have hstopne : (hash ndk.value + i + 1 + dst) % arr.length
              ≠ (hash ndk.value + i) % arr.length := by
            rw [hdeq]
            intro hEq
            exact henk hEq
          rw [hA0other _ hstopne, hdeq]
          exact hes)
        (by rw [hlenA0]; exact hdne)
        (by omega)
      obtain ⟨arr2, heqF, hlen2, hwf2, hmem2, hlive2, hbound2⟩ := hres
      refine ⟨arr2, ?_, hlen2.trans hlenA0, hwf2, ?_, ?_, hbound2⟩
      · rw [eraseLoop_found_step hwf.pow2 hm hv, ← hA0, heqF]
      · intro k
        refine (hmem2 k).trans ?_
        rw [hA0]
        exact memArr_set_remove hwf hholek k
      · have hlc := liveCount_set_none_some hholek
        rw [hlive2, hA0]
        omega
    · -- not yet found: the occupant is a different key, keep scanning
      have hik : i < ndk.probes := by
        rcases Nat.lt_or_ge i ndk.probes with hcase | hcase
        · exact hcase
        · exfalso
          have heq : i = ndk.probes := by omega
          subst heq
          have hpos2 := (hwf.consistent jk ndk hjk).2
          rw [← hpos2, hjk] at hm
          cases hm
          exact hv rfl
      rw [eraseLoop_advance_step hwf.pow2 hm hv]
      exact ih (i + 1) (by omega) (by omega)

theorem slotAt_replicate (n j : Nat) :
    slotAt (List.replicate n (none : Option (Node K))) j = none := by
  rw [slotAt, List.getD_eq_getElem?_getD, List.getElem?_replicate]
  split <;> rfl

theorem liveCount_replicate (n : Nat) :
    liveCount (List.replicate n (none : Option (Node K))) = 0 := by
  rw [liveCount]
  apply List.countP_eq_zero.mpr
  intro a ha
  rw [List.eq_of_mem_replicate ha]
  simp

theorem arrWF_replicate {hash : K → Nat} {n : Nat} (hp : 0 < n) (hpow : ∃ k, n = 2 ^ k) :
    ArrWF hash (List.replicate n (none : Option (Node K))) := by
  refine ⟨by simpa using hp, by simpa using hpow, ?_, ?_, ?_⟩
  · intro j nd hj
    rw [slotAt_replicate] at hj
    exact Option.noConfusion hj
  · intro j nd hj hp2
    rw [slotAt_replicate] at hj
    exact Option.noConfusion hj
  · intro j1 j2 nd1 nd2 h1 h2 hv
    rw [slotAt_replicate] at h1
    exact Option.noConfusion h1

theorem memArr_replicate {n : Nat} {k : K} :
    ¬ MemArr (List.replicate n (none : Option (Node K))) k := by
  rintro ⟨j, hj, nd, hnd, hv⟩
  rw [slotAt_replicate] at hnd
  exact Option.noConfusion hnd

theorem memArr_iff_exists_mem {arr : Buffer K} {k : K} :
    MemArr arr k ↔ ∃ nd, some nd ∈ arr ∧ nd.value = k := by
  constructor
  · rintro ⟨j, hj, nd, hnd, hv⟩
    refine ⟨nd, ?_, hv⟩
    rw [slotAt_getElem hj] at hnd
    exact hnd ▸ List.getElem_mem hj
  · rintro ⟨nd, hmem, hv⟩
    obtain ⟨j, hj, hval⟩ := List.mem_iff_getElem.mp hmem
    exact ⟨j, hj, nd, by rw [slotAt_getElem hj, hval], hv⟩

theorem nodups_pairwise {hash : K → Nat} {arr : Buffer K} (hwf : ArrWF hash arr) :
    arr.Pairwise (fun o1 o2 => ∀ nd1 nd2, o1 = some nd1 → o2 = some nd2 →
      nd1.value ≠ nd2.value) := by
  rw [List.pairwise_iff_getElem]
  intro i j hi hj hij nd1 nd2 h1 h2 hv
  have hs1 : slotAt arr i = some nd1 := by rw [slotAt_getElem hi, h1]
  have hs2 : slotAt arr j = some nd2 := by rw [slotAt_getElem hj, h2]
  have := hwf.nodups i j nd1 nd2 hs1 hs2 hv
  omega

theorem liveCount_eq_countP (arr : Buffer K) :
    liveCount arr = arr.countP (fun o => o.isSome) := rfl

theorem growLoop_spec {hash : K → Nat} :
    ∀ (L : List (Option (Node K))) (acc : Buffer K) (mp : Nat),
    ArrWF hash acc →
    (∀ k, MemArr acc k → ¬ ∃ nd, some nd ∈ L ∧ nd.value = k) →
    List.Pairwise (fun o1 o2 => ∀ nd1 nd2, o1 = some nd1 → o2 = some nd2 →
      nd1.value ≠ nd2.value) L →
    liveCount acc + L.countP (fun o => o.isSome) < acc.length →
    (∀ j nd, slotAt acc j = some nd → nd.probes ≤ mp) →
    ∃ arr2 mp2, growLoop hash L acc mp = some (arr2, mp2) ∧
      arr2.length = acc.length ∧ ArrWF hash arr2 ∧
      (∀ k, MemArr arr2 k ↔ (MemArr acc k ∨ ∃ nd, some nd ∈ L ∧ nd.value = k)) ∧
      liveCount arr2 = liveCount acc + L.countP (fun o => o.isSome) ∧
      mp ≤ mp2 ∧
      (∀ j nd, slotAt arr2 j = some nd → nd.probes ≤ mp2) := by
  intro L
  induction L with
  | nil =>
    intro acc mp hwf hdisj hpw hlt hbound
    refine ⟨acc, mp, rfl, rfl, hwf, ?_, by simp, le_refl _, hbound⟩
    intro k
    simp
  | cons o rest ih =>
    intro acc mp hwf hdisj hpw hlt hbound
    cases o with
    | none =>
      have hcnt : (List.countP (fun o => o.isSome) (none :: rest))
          = List.countP (fun o => o.isSome) rest := by
        rw [List.countP_cons_of_neg]
        simp
      obtain ⟨arr2, mp2, heq, hlen, hwf2, hmem2, hlive2, hle, hbound2⟩ :=
        ih acc mp hwf
          (by
            intro k hM ⟨nd, hmemr, hval⟩
            exact hdisj k hM ⟨nd, List.mem_cons_of_mem _ hmemr, hval⟩)
          (List.Pairwise.of_cons hpw)
          (by rw [← hcnt]; exact hlt)
          hbound
      refine ⟨arr2, mp2, heq, hlen, hwf2, ?_, ?_, hle, hbound2⟩
      · intro k
        rw [hmem2 k]
        constructor
        · rintro (hM | ⟨nd, hmemr, hval⟩)
          · exact Or.inl hM
          · exact Or.inr ⟨nd, List.mem_cons_of_mem _ hmemr, hval⟩
        · rintro (hM | ⟨nd, hmemr, hval⟩)
          · exact Or.inl hM
          · rcases List.mem_cons.mp hmemr with hh | ht
            · exact Option.noConfusion hh
            · exact Or.inr ⟨nd, ht, hval⟩
      · rw [hlive2, hcnt]
    | some nd =>
      have hlive : liveCount acc < acc.length := by
        have := List.countP_cons_of_pos (p := fun o => Option.isSome o)
          (l := rest) (a := some nd) (by simp)
        omega
      have hnmem : ¬ MemArr acc nd.value := by
        intro hM
        exact hdisj nd.value hM ⟨nd, List.mem_cons_self _ _, rfl⟩
      obtain ⟨e, helt, hes⟩ := exists_none_of_liveCount_lt hlive
      obtain ⟨dst, hdlt, hdeq⟩ := exists_step_to hwf.pos (hash nd.value) e helt
      have hempty0 : slotAt acc ((hash nd.value + dst) % acc.length) = none := by
        rw [hdeq]
        exact hes
      obtain ⟨acc2, mp2, heqN, hlenN, hwfN, hmemN, hliveN, hleN, hboundN⟩ :=
        insertNode_spec (2 * acc.length + 2) acc { nd with probes := 0 } mp dst mp
          hwf
          (by
            intro s hs
            exact absurd (show s < 0 from hs) (by omega))
          hnmem
          hdlt
          hempty0
          (by omega)
          hbound
      have hboundN2 : ∀ j q, slotAt acc2 j = some q → q.probes ≤ mp2 := by
        intro j q hq
        have h1 := hboundN j q hq
        have h2 : mp ≤ mp2 := hleN
        omega
      have hpwc := List.pairwise_cons.mp hpw
      obtain ⟨arrF, mpF, heqF, hlenF, hwfF, hmemF, hliveF, hleF, hboundF⟩ :=
        ih acc2 mp2 hwfN
          (by
            intro k hM ⟨q, hmemr, hval⟩
            rcases (hmemN k).mp hM with hMacc | hknd
            · exact hdisj k hMacc ⟨q, List.mem_cons_of_mem _ hmemr, hval⟩
            · have := hpwc.1 (some q) hmemr nd q rfl rfl
              exact this (by rw [← hknd, hval]))
          hpwc.2
          (by
            have hcnt := List.countP_cons_of_pos (p := fun o => Option.isSome o)
              (l := rest) (a := some nd) (by simp)
            rw [hlenN, hliveN]
            omega)
          hboundN2
      refine ⟨arrF, mpF, ?_, hlenF.trans hlenN, hwfF, ?_, ?_, le_trans hleN hleF, hboundF⟩
      · show (match insertNode hash (2 * acc.length + 2) acc { nd with probes := 0 } mp with
          | none => none
          | some (arr2, maxP2) => growLoop hash rest arr2 maxP2) = some (arrF, mpF)
        rw [heqN]
        exact heqF
      · intro k
        rw [hmemF k]
        constructor
        · rintro (hM2 | ⟨q, hmemr, hval⟩)
          · rcases (hmemN k).mp hM2 with hMacc | hknd
            · exact Or.inl hMacc
            · exact Or.inr ⟨nd, List.mem_cons_self _ _, hknd.symm⟩
          · exact Or.inr ⟨q, List.mem_cons_of_mem _ hmemr, hval⟩
        · rintro (hMacc | ⟨q, hmemr, hval⟩)
          · exact Or.inl ((hmemN k).mpr (Or.inl hMacc))
          · rcases List.mem_cons.mp hmemr with hh | ht
            · cases hh
              exact Or.inl ((hmemN k).mpr (Or.inr hval.symm))
            · exact Or.inr ⟨q, ht, hval⟩
      · have hcnt := List.countP_cons_of_pos (p := fun o => Option.isSome o)
          (l := rest) (a := some nd) (by simp)
        rw [hliveF, hliveN]
        omega

theorem growTable_eval {hash : K → Nat} (t : Table K) :
    growTable hash t =
      match growLoop hash t.arr
          (List.replicate (power_of_two_growth.next t.capacity) none) 0 with
      | none => none
      | some (arr2, maxP2) => some ⟨arr2, t.size, maxP2⟩ := rfl

theorem growTable_spec {hash : K → Nat} {t : Table K} (hinv : Inv hash t) :
    ∃ t2, growTable hash t = some t2 ∧
      t2.capacity = 2 * t.capacity ∧ t2.size = t.size ∧
      Inv hash t2 ∧ (∀ k, Table.Mem t2 k ↔ Table.Mem t k) := by
  have hc8 := hinv.cap8
  obtain ⟨kk, hkk⟩ := hinv.wf.pow2
  have hlenR : (List.replicate (power_of_two_growth.next t.capacity)
      (none : Option (Node K))).length = 2 * t.capacity := by
    simp [power_of_two_growth.next, Nat.mul_comm]
  obtain ⟨arr2, mp2, heq, hlen, hwf2, hmem2, hlive2, _, hbound2⟩ :=
    growLoop_spec t.arr
      (List.replicate (power_of_two_growth.next t.capacity) none) 0
      (arrWF_replicate
        (by
          show 0 < power_of_two_growth.next t.capacity
          simp only [power_of_two_growth.next]
          have : 0 < t.capacity := hinv.wf.pos
          omega)
        ⟨kk + 1, by
          show power_of_two_growth.next t.capacity = 2 ^ (kk + 1)
          simp only [power_of_two_growth.next]
          rw [show (t.capacity : Nat) = 2 ^ kk from hkk]
          ring⟩)
      (fun k hM => absurd hM memArr_replicate)
      (nodups_pairwise hinv.wf)
      (by
        rw [liveCount_replicate, hlenR]
        have h1 : t.arr.countP (fun o => o.isSome) = t.size := by
          rw [← liveCount_eq_countP, ← hinv.sizeEq]
        rw [h1]
        have h2 := hinv.sizeLt
        have h3 : 0 < t.capacity := hinv.wf.pos
        omega)
      (by
        intro j nd hj
        rw [slotAt_replicate] at hj
        exact Option.noConfusion hj)
  refine ⟨⟨arr2, t.size, mp2⟩, ?_, ?_, rfl, ?_, ?_⟩
  · rw [growTable_eval, heq]
  · show arr2.length = 2 * t.capacity
    rw [hlen, hlenR]
  · refine ⟨hwf2, ?_, ?_, ?_, hbound2⟩
    · show 8 ≤ arr2.length
      rw [hlen, hlenR]
      omega
    · show t.size = liveCount arr2
      rw [hlive2, liveCount_replicate]
      rw [← liveCount_eq_countP, ← hinv.sizeEq]
      omega
    · show t.size < arr2.length
      rw [hlen, hlenR]
      have h2 := hinv.sizeLt
      have h3 : 0 < t.capacity := hinv.wf.pos
      omega
  · intro k
    show MemArr arr2 k ↔ MemArr t.arr k
    rw [hmem2 k]
    constructor
    · rintro (hR | hL)
      · exact absurd hR memArr_replicate
      · exact memArr_iff_exists_mem.mpr hL
    · intro hM
      exact Or.inr (memArr_iff_exists_mem.mp hM)

theorem shouldGrow_iff {t : Table K} : shouldGrow t = true ↔ 3 * t.capacity < 4 * t.size := by
  simp [shouldGrow]

theorem insert_eval {hash : K → Nat} (t : Table K) (key : K) :
    Table.insert hash t key =
      match (if shouldGrow t then growTable hash t else some t) with
      | none => none
      | some t1 =>
        match insertKey hash (2 * t1.capacity + 3) t1.arr key 0 t1.maxProbes with
        | none => none
        | some (arr2, maxP2, b) =>
          if b then some (⟨arr2, t1.size + 1, maxP2⟩, true)
          else some (⟨arr2, t1.size, maxP2⟩, false) := rfl

theorem erase_eval {hash : K → Nat} (t : Table K) (key : K) :
    Table.erase hash t key =
      match eraseLoop hash t.arr key 0 (t.maxProbes + 1) with
      | none => none
      | some (arr2, true) => some (⟨arr2, t.size - 1, t.maxProbes⟩, true)
      | some (arr2, false) => some (⟨arr2, t.size, t.maxProbes⟩, false) := rfl

theorem insertKey_from_table {hash : K → Nat} {t1 : Table K} (hinv : Inv hash t1) (key : K) :
    ∃ arr2 maxP2 b, insertKey hash (2 * t1.capacity + 3) t1.arr key 0 t1.maxProbes
        = some (arr2, maxP2, b) ∧
      arr2.length = t1.arr.length ∧ ArrWF hash arr2 ∧
      (b = true ↔ ¬ MemArr t1.arr key) ∧
      (∀ k, MemArr arr2 k ↔ (MemArr t1.arr k ∨ k = key)) ∧
      (b = true → liveCount arr2 = liveCount t1.arr + 1) ∧
      (b = false → arr2 = t1.arr ∧ maxP2 = t1.maxProbes) ∧
      (∀ j nd, slotAt arr2 j = some nd → nd.probes ≤ maxP2) := by
  by_cases hM : MemArr t1.arr key
  · obtain ⟨j, hj, nd, hnd, hval⟩ := hM
    subst hval
    have hd : nd.probes < t1.arr.length := (hinv.wf.consistent j nd hnd).1
    have heq := insertKey_dup_spec hinv.wf hnd (2 * t1.capacity + 3) 0 t1.maxProbes
      (Nat.zero_le _)
      (by
        show nd.probes < 0 + (2 * t1.arr.length + 3)
        omega)
    refine ⟨t1.arr, t1.maxProbes, false, heq, rfl, hinv.wf, ?_, ?_, ?_, ?_, hinv.probesLe⟩
    · constructor
      · intro h
        exact Bool.noConfusion h
      · intro h
        exact absurd (memArr_of_slot hnd) h
    · intro k
      constructor
      · intro h
        exact Or.inl h
      · rintro (h | h)
        · exact h
        · rw [h]
          exact memArr_of_slot hnd
    · intro h
      exact Bool.noConfusion h
    · intro h
      exact ⟨rfl, rfl⟩
  · have hlive : liveCount t1.arr < t1.arr.length := by
      have h1 := hinv.sizeEq
      have h2 := hinv.sizeLt
      show liveCount t1.arr < t1.capacity
      omega
    obtain ⟨e, helt, hes⟩ := exists_none_of_liveCount_lt hlive
    obtain ⟨dst, hdlt, hdeq⟩ := exists_step_to hinv.wf.pos (hash key) e helt
    obtain ⟨arr2, maxP2, heq, hlen, hwf2, hmem2, hlive2, hle2, hbound2⟩ :=
      insertKey_new_spec hinv.wf hM hinv.probesLe (2 * t1.capacity + 3) 0 dst
        (by
          intro s hs
          exact absurd hs (by omega))
        hdlt
        (by
          show slotAt t1.arr ((hash key + 0 + dst) % t1.arr.length) = none
          rw [Nat.add_zero, hdeq]
          exact hes)
        (by
          show 2 * dst + 3 ≤ 2 * t1.arr.length + 3
          omega)
    refine ⟨arr2, maxP2, true, heq, hlen, hwf2, ?_, hmem2, fun _ => hlive2, ?_, ?_⟩
    · exact ⟨fun _ => hM, fun _ => rfl⟩
    · intro h
      exact Bool.noConfusion h
    · intro j nd hj
      have h1 := hbound2 j nd hj
      have h2 : t1.maxProbes ≤ maxP2 := hle2
      omega

theorem insert_spec {hash : K → Nat} {t : Table K} (hinv : Inv hash t) (key : K) :
    ∃ t2 b, Table.insert hash t key = some (t2, b) ∧ Inv hash t2 ∧
      (b = true ↔ ¬ Table.Mem t key) ∧
      (∀ k, Table.Mem t2 k ↔ (Table.Mem t k ∨ k = key)) ∧
      (b = true → t2.size = t.size + 1) ∧
      (b = false → t2.size = t.size) ∧
      (shouldGrow t = true → t2.capacity = 2 * t.capacity) ∧
      (shouldGrow t = false → t2.capacity = t.capacity) ∧
      (shouldGrow t = false → b = false → t2 = t) := by
  cases hg : shouldGrow t with
  | false =>
    obtain ⟨arr2, maxP2, b, heqK, hlen, hwf2, hbiff, hmem2, hliveT, hliveF, hbound2⟩ :=
      insertKey_from_table hinv key
    have hsz : t.size < t.capacity := hinv.sizeLt
    have hng : ¬ 3 * t.capacity < 4 * t.size := by
      intro h
      rw [← shouldGrow_iff] at h
      rw [hg] at h
      exact Bool.noConfusion h
    cases b with
    | true =>
      refine ⟨⟨arr2, t.size + 1, maxP2⟩, true, ?_, ?_, ?_, hmem2, fun _ => rfl, ?_, ?_, ?_, ?_⟩
      · simp [insert_eval, hg, heqK]
      · refine ⟨hwf2, ?_, ?_, ?_, hbound2⟩
        · show 8 ≤ arr2.length
          rw [hlen]
          exact hinv.cap8
        · show t.size + 1 = liveCount arr2
          rw [hliveT rfl, ← hinv.sizeEq]
        · show t.size + 1 < arr2.length
          rw [hlen]
          show t.size + 1 < t.capacity
          have hc8 := hinv.cap8
          omega
      · simpa using hbiff
      · intro h
        exact Bool.noConfusion h
      · intro h
        exact Bool.noConfusion h
      · intro _
        show arr2.length = t.capacity
        rw [hlen]
        rfl
      · intro _ h
        exact Bool.noConfusion h
    | false =>
      obtain ⟨harr, hmp⟩ := hliveF rfl
      subst harr
      subst hmp
      refine ⟨⟨t.arr, t.size, t.maxProbes⟩, false, ?_, ?_, ?_, hmem2, ?_, fun _ => rfl,
        ?_, fun _ => rfl, fun _ _ => rfl⟩
      · simp [insert_eval, hg, heqK]
      · exact ⟨hinv.wf, hinv.cap8, hinv.sizeEq, hinv.sizeLt, hinv.probesLe⟩
      · simpa using hbiff
      · intro h
        exact Bool.noConfusion h
      · intro h
        exact Bool.noConfusion h
  | true =>
    obtain ⟨t1, heqG, hcap1, hsz1, hinv1, hmem1⟩ := growTable_spec hinv
    obtain ⟨arr2, maxP2, b, heqK, hlen, hwf2, hbiff, hmem2, hliveT, hliveF, hbound2⟩ :=
      insertKey_from_table hinv1 key
    have hmemt : ∀ k, MemArr arr2 k ↔ (Table.Mem t k ∨ k = key) := by
      intro k
      rw [hmem2 k]
      constructor
      · rintro (h | h)
        · exact Or.inl ((hmem1 k).mp h)
        · exact Or.inr h
      · rintro (h | h)
        · exact Or.inl ((hmem1 k).mpr h)
        · exact Or.inr h
    cases b with
    | true =>
      refine ⟨⟨arr2, t1.size + 1, maxP2⟩, true, ?_, ?_, ?_, hmemt, ?_, ?_, ?_, ?_, ?_⟩
      · simp [insert_eval, hg, heqG, heqK]
      · refine ⟨hwf2, ?_, ?_, ?_, hbound2⟩
        · show 8 ≤ arr2.length
          rw [hlen]
          exact hinv1.cap8
        · show t1.size + 1 = liveCount arr2
          rw [hliveT rfl, ← hinv1.sizeEq]
        · show t1.size + 1 < arr2.length
          rw [hlen]
          show t1.size + 1 < t1.capacity
          have h1 := hinv.sizeLt
          have h2 : 0 < t.capacity := hinv.wf.pos
          omega
      · constructor
        · intro _
          intro hMt
          have hMk : MemArr t1.arr key := (hmem1 key).mpr hMt
          have := hbiff.mp rfl
          exact this hMk
        · intro _
          rfl
      · intro _
        show t1.size + 1 = t.size + 1
        omega
      · intro h
        exact Bool.noConfusion h
      · intro _
        show arr2.length = 2 * t.capacity
        rw [hlen]
        exact hcap1
      · intro h
        exact Bool.noConfusion h
      · intro h
        exact Bool.noConfusion h
    | false =>
      obtain ⟨harr, hmp⟩ := hliveF rfl
      subst harr
      subst hmp
      refine ⟨⟨t1.arr, t1.size, t1.maxProbes⟩, false, ?_, ?_, ?_, hmemt, ?_, ?_, ?_, ?_, ?_⟩
      · simp [insert_eval, hg, heqG, heqK]
      · exact ⟨hinv1.wf, hinv1.cap8, hinv1.sizeEq, hinv1.sizeLt, hinv1.probesLe⟩
      · constructor
        · intro h
          exact Bool.noConfusion h
        · intro hNM
          exfalso
          have hMk : ¬ MemArr t1.arr key := by
            intro hMk
            exact hNM ((hmem1 key).mp hMk)
          have := hbiff.mpr hMk
          exact Bool.noConfusion this
      · intro h
        exact Bool.noConfusion h
      · intro _
        show t1.size = t.size
        omega
      · intro _
        show t1.arr.length = 2 * t.capacity
        exact hcap1
      · intro h
        exact Bool.noConfusion h
      · intro h
        exact Bool.noConfusion h


theorem erase_spec {hash : K → Nat} {t : Table K} (hinv : Inv hash t) (key : K) :
    ∃ t2 b, Table.erase hash t key = some (t2, b) ∧ Inv hash t2 ∧
      (b = true ↔ Table.Mem t key) ∧
      (∀ k, Table.Mem t2 k ↔ (Table.Mem t k ∧ k ≠ key)) ∧
      t2.capacity = t.capacity ∧ t2.maxProbes = t.maxProbes ∧
      (b = true → t2.size + 1 = t.size) ∧
      (b = false → t2 = t) := by
  by_cases hM : Table.Mem t key
  · obtain ⟨j, hj, nd, hnd, hval⟩ := hM
    subst hval
    have hlive : liveCount t.arr < t.arr.length := by
      have h1 := hinv.sizeEq
      have h2 := hinv.sizeLt
      show liveCount t.arr < t.capacity
      omega
    have hc3 : 2 < t.arr.length := by
      have := hinv.cap8
      show 2 < t.capacity
      omega
    obtain ⟨arr2, heqE, hlen, hwf2, hmem2, hlive2, hbound2⟩ :=
      eraseLoop_found hinv.wf hc3 hlive hnd hinv.probesLe (t.maxProbes + 1) 0
        (Nat.zero_le _)
        (by
          have := hinv.probesLe j nd hnd
          omega)
    refine ⟨⟨arr2, t.size - 1, t.maxProbes⟩, true, ?_, ?_, ?_, hmem2, ?_, rfl, ?_, ?_⟩
    · rw [erase_eval, heqE]
    · refine ⟨hwf2, ?_, ?_, ?_, ?_⟩
      · show 8 ≤ arr2.length
        rw [hlen]
        exact hinv.cap8
      · show t.size - 1 = liveCount arr2
        have h1 := hinv.sizeEq
        omega
      · show t.size - 1 < arr2.length
        rw [hlen]
        have := hinv.sizeLt
        show t.size - 1 < t.capacity
        omega
      · exact hbound2
    · exact ⟨fun _ => memArr_of_slot hnd, fun _ => rfl⟩
    · show arr2.length = t.capacity
      rw [hlen]
      rfl
    · intro _
      show t.size - 1 + 1 = t.size
      have h1 := hinv.sizeEq
      have h2 : 0 < liveCount t.arr := by
        rw [liveCount]
        refine List.countP_pos.mpr ⟨some nd, ?_, rfl⟩
        have hjlt := slotAt_lt_length hnd
        rw [slotAt_getElem hjlt] at hnd
        exact hnd ▸ List.getElem_mem hjlt
      omega
    · intro h
      exact Bool.noConfusion h
  · have heqE := @eraseLoop_notmem K _ hash t.arr key hinv.wf.pow2 hM (t.maxProbes + 1) 0
    refine ⟨⟨t.arr, t.size, t.maxProbes⟩, false, ?_, ?_, ?_, ?_, rfl, rfl, ?_, fun _ => rfl⟩
    · rw [erase_eval, heqE]
    · exact ⟨hinv.wf, hinv.cap8, hinv.sizeEq, hinv.sizeLt, hinv.probesLe⟩
    · constructor
      · intro h
        exact Bool.noConfusion h
      · intro h
        exact absurd h hM
    · intro k
      constructor
      · intro h
        refine ⟨h, ?_⟩
        intro hEq
        rw [hEq] at h
        exact hM h
      · rintro ⟨h, _⟩
        exact h
    · intro h
      exact Bool.noConfusion h

theorem inv_empty {hash : K → Nat} : Inv hash (Table.empty K) := by
  refine ⟨arrWF_replicate (by omega) ⟨3, rfl⟩, ?_, ?_, ?_, ?_⟩
  · show 8 ≤ (List.replicate 8 (none : Option (Node K))).length
    simp
  · show 0 = liveCount (List.replicate 8 (none : Option (Node K)))
    rw [liveCount_replicate]
  · show 0 < (List.replicate 8 (none : Option (Node K))).length
    simp
  · intro j nd hj
    rw [show (Table.empty K).arr = List.replicate 8 none from rfl, slotAt_replicate] at hj
    exact Option.noConfusion hj

theorem slotAt_clearmap (arr : Buffer K) (j : Nat) :
    slotAt (arr.map fun _ => (none : Option (Node K))) j = none := by
  rw [slotAt, List.getD_eq_getElem?_getD, List.getElem?_map]
  cases arr[j]? <;> rfl

theorem liveCount_clearmap (arr : Buffer K) :
    liveCount (arr.map fun _ => (none : Option (Node K))) = 0 := by
  rw [liveCount, List.countP_map]
  apply List.countP_eq_zero.mpr
  intro a ha
  simp

theorem inv_clear {hash : K → Nat} {t : Table K} (hinv : Inv hash t) :
    Inv hash (Table.clear t) := by
  have hlen : (t.arr.map fun _ => (none : Option (Node K))).length = t.arr.length :=
    List.length_map _ _
  refine ⟨⟨?_, ?_, ?_, ?_, ?_⟩, ?_, ?_, ?_, ?_⟩
  · show 0 < (t.arr.map fun _ => (none : Option (Node K))).length
    rw [hlen]
    exact hinv.wf.pos
  · show ∃ k, (t.arr.map fun _ => (none : Option (Node K))).length = 2 ^ k
    rw [hlen]
    exact hinv.wf.pow2
  · intro j nd hj
    rw [show t.clear.arr = t.arr.map (fun _ => (none : Option (Node K))) from rfl,
      slotAt_clearmap] at hj
    exact Option.noConfusion hj
  · intro j nd hj hp
    rw [show t.clear.arr = t.arr.map (fun _ => (none : Option (Node K))) from rfl,
      slotAt_clearmap] at hj
    exact Option.noConfusion hj
  · intro j1 j2 nd1 nd2 h1 h2 hv
    rw [show t.clear.arr = t.arr.map (fun _ => (none : Option (Node K))) from rfl,
      slotAt_clearmap] at h1
    exact Option.noConfusion h1
  · show 8 ≤ (t.arr.map fun _ => (none : Option (Node K))).length
    rw [hlen]
    exact hinv.cap8
  · show 0 = liveCount (t.arr.map fun _ => (none : Option (Node K)))
    rw [liveCount_clearmap]
  · show 0 < (t.arr.map fun _ => (none : Option (Node K))).length
    rw [hlen]
    exact hinv.wf.pos
  · intro j nd hj
    rw [show t.clear.arr = t.arr.map (fun _ => (none : Option (Node K))) from rfl,
      slotAt_clearmap] at hj
    exact Option.noConfusion hj

theorem reachable_inv {hash : K → Nat} {t : Table K} (hr : Reachable hash t) :
    Inv hash t := by
  induction hr with
  | base => exact inv_empty
  | ins h1 h2 ih =>
    obtain ⟨t2, b2, heq2, hinv2, _⟩ := insert_spec ih _
    rw [heq2] at h2
    have h3 := Option.some.inj h2
    cases h3
    exact hinv2
  | del h1 h2 ih =>
    obtain ⟨t2, b2, heq2, hinv2, _⟩ := erase_spec ih _
    rw [heq2] at h2
    have h3 := Option.some.inj h2
    cases h3
    exact hinv2
  | clr h1 ih => exact inv_clear ih

theorem runOps_nil {hash : K → Nat} (t : Table K) : runOps hash t [] = some t := rfl

theorem runOps_ins {hash : K → Nat} {t t' : Table K} {k : K} {b : Bool}
    (h : Table.insert hash t k = some (t', b)) (rest : List (Op K)) :
    runOps hash t (Op.ins k :: rest) = runOps hash t' rest := by
  have hstep : runOps hash t (Op.ins k :: rest) =
      match Table.insert hash t k with
      | none => none
      | some (t2, _) => runOps hash t2 rest := rfl
  rw [hstep, h]

theorem runOps_del {hash : K → Nat} {t t' : Table K} {k : K} {b : Bool}
    (h : Table.erase hash t k = some (t', b)) (rest : List (Op K)) :
    runOps hash t (Op.del k :: rest) = runOps hash t' rest := by
  have hstep : runOps hash t (Op.del k :: rest) =
      match Table.erase hash t k with
      | none => none
      | some (t2, _) => runOps hash t2 rest := rfl
  rw [hstep, h]

theorem reachable_runOps {hash : K → Nat} :
    ∀ (ops : List (Op K)) (t t2 : Table K), Reachable hash t →
      runOps hash t ops = some t2 → Reachable hash t2 := by
  intro ops
  induction ops with
  | nil =>
    intro t t2 hr h
    cases Option.some.inj h
    exact hr
  | cons op rest ih =>
    intro t t2 hr h
    cases op with
    | ins k =>
      obtain ⟨t1, b1, heq1, _⟩ := insert_spec (reachable_inv hr) k
      rw [runOps_ins heq1] at h
      exact ih t1 t2 (Reachable.ins hr heq1) h
    | del k =>
      obtain ⟨t1, b1, heq1, _⟩ := erase_spec (reachable_inv hr) k
      rw [runOps_del heq1] at h
      exact ih t1 t2 (Reachable.del hr heq1) h

/-- On every reachable state, `4 * size ≤ 3 * capacity + 4`: because growth
fires before an insert whenever the load factor exceeds 0.75, a completed
insert can leave the load factor at most one entry above the threshold. -/
theorem reachable_load {hash : K → Nat} {t : Table K} (hr : Reachable hash t) :
    4 * t.size ≤ 3 * t.capacity + 4 := by
  induction hr with
  | base =>
    have h1 : (Table.empty K).size = 0 := rfl
    have h2 : (Table.empty K).capacity = 8 := rfl
    omega
  | ins h1 h2 ih =>
    rename_i t0 t' k b
    obtain ⟨t2, b2, heq, hinv2, hbiff, hmem, hsT, hsF, hcT, hcF, hid⟩ :=
      insert_spec (reachable_inv h1) k
    rw [heq] at h2
    obtain ⟨he1, he2⟩ := Prod.mk.injEq .. ▸ Option.some.inj h2
    cases he1
    cases he2
    have hc8 := (reachable_inv h1).cap8
    have hsz : t'.size ≤ t0.size + 1 := by
      cases b with
      | false => rw [hsF rfl]; omega
      | true => rw [hsT rfl]
    cases hg : shouldGrow t0 with
    | false =>
      have hng : ¬ 3 * t0.capacity < 4 * t0.size := fun hlt =>
        Bool.noConfusion (hg ▸ shouldGrow_iff.mpr hlt)
      have hcap := hcF hg
      omega
    | true =>
      have hcap := hcT hg
      omega
  | del h1 h2 ih =>
    rename_i t0 t' k b
    obtain ⟨t2, b2, heq, hinv2, hbiff, hmem, hcap, hmp, hszT, hbf⟩ :=
      erase_spec (reachable_inv h1) k
    rw [heq] at h2
    obtain ⟨he1, he2⟩ := Prod.mk.injEq .. ▸ Option.some.inj h2
    cases he1
    cases he2
    cases b with
    | false => rw [hbf rfl]; exact ih
    | true =>
      have := hszT rfl
      omega
  | clr h1 ih =>
    rename_i t0
    have h1 : (Table.clear t0).size = 0 := rfl
    omega

theorem walkDistsAux_eval {hash : K → Nat} {arr : Buffer K} {k : K} (steps i : Nat) :
    walkDistsAux hash arr k i (steps + 1) =
      match slotAt arr (probeAt (hash k) arr.length i) with
      | none => []
      | some m =>
        if m.value = k then [m.probes]
        else m.probes :: walkDistsAux hash arr k (i + 1) steps := rfl

theorem walkDistsAux_none {hash : K → Nat} {arr : Buffer K} {k : K} {steps i : Nat}
    (h : slotAt arr (probeAt (hash k) arr.length i) = none) :
    walkDistsAux hash arr k i (steps + 1) = [] := by
  rw [walkDistsAux_eval, h]

theorem walkDistsAux_found {hash : K → Nat} {arr : Buffer K} {k : K} {steps i : Nat}
    {m : Node K} (h : slotAt arr (probeAt (hash k) arr.length i) = some m)
    (hv : m.value = k) :
    walkDistsAux hash arr k i (steps + 1) = [m.probes] := by
  rw [walkDistsAux_eval, h]
  show (if m.value = k then [m.probes]
    else m.probes :: walkDistsAux hash arr k (i + 1) steps) = [m.probes]
  rw [if_pos hv]

theorem walkDistsAux_step {hash : K → Nat} {arr : Buffer K} {k : K} {steps i : Nat}
    {m : Node K} (h : slotAt arr (probeAt (hash k) arr.length i) = some m)
    (hv : ¬ m.value = k) :
    walkDistsAux hash arr k i (steps + 1) =
      m.probes :: walkDistsAux hash arr k (i + 1) steps := by
  rw [walkDistsAux_eval, h]
  show (if m.value = k then [m.probes]
    else m.probes :: walkDistsAux hash arr k (i + 1) steps) = _
  rw [if_neg hv]

theorem walkDistsAux_head {hash : K → Nat} {arr : Buffer K} {k : K} :
    ∀ (steps i : Nat) (x : Nat) (l : List Nat),
      walkDistsAux hash arr k i steps = x :: l →
      ∃ m, slotAt arr (probeAt (hash k) arr.length i) = some m ∧ x = m.probes := by
  intro steps i x l h
  cases steps with
  | zero => exact absurd h (fun hh => List.noConfusion hh)
  | succ s =>
    cases hoff : slotAt arr (probeAt (hash k) arr.length i) with
    | none =>
      rw [walkDistsAux_none hoff] at h
      exact List.noConfusion h
    | some m =>
      by_cases hv : m.value = k
      · rw [walkDistsAux_found hoff hv] at h
        exact ⟨m, rfl, ((List.cons.inj h).1).symm⟩
      · rw [walkDistsAux_step hoff hv] at h
        exact ⟨m, rfl, ((List.cons.inj h).1).symm⟩

/-- The probe-distance trace of any walk on a well-formed buffer can grow by
at most one per step: this is the actual Robin Hood ordering invariant. -/
theorem walkDistsAux_chain {hash : K → Nat} {arr : Buffer K} (hwf : ArrWF hash arr) (k : K) :
    ∀ (steps i : Nat),
      List.Chain' (fun a b => b ≤ a + 1) (walkDistsAux hash arr k i steps) := by
  intro steps
  induction steps with
  | zero =>
    intro i
    exact List.chain'_nil
  | succ s ih =>
    intro i
    cases hoff : slotAt arr (probeAt (hash k) arr.length i) with
    | none =>
      rw [walkDistsAux_none hoff]
      exact List.chain'_nil
    | some m =>
      by_cases hv : m.value = k
      · rw [walkDistsAux_found hoff hv]
        exact List.chain'_singleton _
      · rw [walkDistsAux_step hoff hv]
        rw [List.chain'_cons']
        refine ⟨?_, ih (i + 1)⟩
        intro y hy
        cases htl : walkDistsAux hash arr k (i + 1) s with
        | nil =>
          rw [htl] at hy
          exact absurd hy (by simp)
        | cons x l =>
          rw [htl] at hy
          simp only [List.head?_cons, Option.mem_def, Option.some.injEq] at hy
          subst hy
          obtain ⟨m2, hm2, hx⟩ := walkDistsAux_head s (i + 1) x l htl
          subst hx
          by_cases hp : m2.probes = 0
          · omega
          · obtain ⟨w, hw, hle⟩ := hwf.rh _ m2 hm2 (Nat.pos_of_ne_zero hp)
            have hpred : (probeAt (hash k) arr.length (i + 1) + (arr.length - 1)) %
                arr.length = probeAt (hash k) arr.length i := by
              rw [probeAt_eq_mod hwf.pow2, probeAt_eq_mod hwf.pow2]
              exact pred_walk hwf.pos (hash k) i
            rw [hpred, hoff] at hw
            cases Option.some.inj hw
            omega

theorem walkDists_chain {hash : K → Nat} {arr : Buffer K} (hwf : ArrWF hash arr) (k : K) :
    List.Chain' (fun a b => b ≤ a + 1) (walkDists hash arr k) :=
  walkDistsAux_chain hwf k arr.length 0

/-- Inserting a list of distinct, fresh keys succeeds key by key: the final
size is the old size plus the number of keys, and membership is the old
membership extended by exactly the inserted keys. -/
theorem runOps_insert_list {hash : K → Nat} :
    ∀ (ks : List K) (t : Table K), Reachable hash t → ks.Nodup →
      (∀ k ∈ ks, ¬ Table.Mem t k) →
      ∃ t2, runOps hash t (ks.map Op.ins) = some t2 ∧ Reachable hash t2 ∧
        t2.size = t.size + ks.length ∧
        (∀ k, Table.Mem t2 k ↔ (Table.Mem t k ∨ k ∈ ks)) := by
  intro ks
  induction ks with
  | nil =>
    intro t hr _ _
    exact ⟨t, rfl, hr, by simp, by simp⟩
  | cons k rest ih =>
    intro t hr hnd hfresh
    obtain ⟨t1, b1, heq1, hinv1, hbiff, hmem1, hsT, hsF, _, _, _⟩ :=
      insert_spec (reachable_inv hr) k
    have hb1 : b1 = true := hbiff.mpr (hfresh k (by simp))
    subst hb1
    have hr1 : Reachable hash t1 := Reachable.ins hr heq1
    have hfresh1 : ∀ k2 ∈ rest, ¬ Table.Mem t1 k2 := by
      intro k2 hk2 hmem
      rw [hmem1 k2] at hmem
      cases hmem with
      | inl h => exact hfresh k2 (by simp [hk2]) h
      | inr h =>
        subst h
        exact (List.nodup_cons.mp hnd).1 hk2
    obtain ⟨t2, heq2, hr2, hsz2, hmem2⟩ := ih t1 hr1 (List.nodup_cons.mp hnd).2 hfresh1
    refine ⟨t2, ?_, hr2, ?_, ?_⟩
    · rw [List.map_cons, runOps_ins heq1]
      exact heq2
    · rw [hsz2, hsT rfl, List.length_cons]
      omega
    · intro k2
      rw [hmem2 k2, hmem1 k2, List.mem_cons]
      exact or_assoc

/-- Claim C1: on every reachable table, `insert k` makes `contains k` true;
inserting an absent key returns `true` and grows `size` by exactly one,
inserting a present key returns `false` and keeps `size` unchanged; hence
two consecutive `insert k` calls on a table without `k` report
`(true, false)` and grow `size` by exactly one in total. -/
theorem claim_C1 {hash : K → Nat} {t : Table K} (hr : Reachable hash t) (k : K) :
    ∃ t1 b1 t2 b2,
      Table.insert hash t k = some (t1, b1) ∧
      Table.contains hash t1 k = true ∧
      (b1 = true ↔ ¬ Table.Mem t k) ∧
      (b1 = true → t1.size = t.size + 1) ∧
      (b1 = false → t1.size = t.size) ∧
      Table.insert hash t1 k = some (t2, b2) ∧
      b2 = false ∧ t2.size = t1.size ∧
      (¬ Table.Mem t k → b1 = true ∧ b2 = false ∧ t2.size = t.size + 1) := by
  obtain ⟨t1, b1, heq1, hinv1, hbiff1, hmem1, hsT1, hsF1, _, _, _⟩ :=
    insert_spec (reachable_inv hr) k
  obtain ⟨t2, b2, heq2, hinv2, hbiff2, hmem2, hsT2, hsF2, _, _, _⟩ :=
    insert_spec hinv1 k
  have hmemt1 : Table.Mem t1 k := (hmem1 k).mpr (Or.inr rfl)
  have hb2 : b2 = false := by
    cases b2 with
    | false => rfl
    | true => exact absurd hmemt1 (hbiff2.mp rfl)
  subst hb2
  refine ⟨t1, b1, t2, false, heq1, ?_, hbiff1, hsT1, hsF1, heq2, rfl, hsF2 rfl, ?_⟩
  · exact (contains_iff_mem hinv1 k).mpr hmemt1
  · intro habs
    have hb1 : b1 = true := hbiff1.mpr habs
    refine ⟨hb1, rfl, ?_⟩
    rw [hsF2 rfl, hsT1 hb1]

/-- Witness for claim C1 at the empty table and key 0. -/
theorem claim_C1_witness :
    ∃ t1 b1 t2 b2,
      Table.insert idhash (Table.empty Nat) 0 = some (t1, b1) ∧
      Table.contains idhash t1 0 = true ∧
      (b1 = true ↔ ¬ Table.Mem (Table.empty Nat) 0) ∧
      (b1 = true → t1.size = (Table.empty Nat).size + 1) ∧
      (b1 = false → t1.size = (Table.empty Nat).size) ∧
      Table.insert idhash t1 0 = some (t2, b2) ∧
      b2 = false ∧ t2.size = t1.size ∧
      (¬ Table.Mem (Table.empty Nat) 0 → b1 = true ∧ b2 = false ∧
        t2.size = (Table.empty Nat).size + 1) :=
  claim_C1 Reachable.base 0

/-- Claim C2: on every reachable table holding `k`, `erase k` returns `true`,
afterwards `contains k` is false, `size` drops by exactly one, and every
other previously-present key is still present. -/
theorem claim_C2 {hash : K → Nat} {t : Table K} (hr : Reachable hash t) (k : K)
    (hmem : Table.Mem t k) :
    ∃ t2, Table.erase hash t k = some (t2, true) ∧
      Table.contains hash t2 k = false ∧
      t2.size + 1 = t.size ∧
      (∀ j, j ≠ k → Table.Mem t j → Table.Mem t2 j) := by
  obtain ⟨t2, b, heq, hinv2, hbiff, hmem2, hcap, hmp, hszT, hbf⟩ :=
    erase_spec (reachable_inv hr) k
  have hb : b = true := hbiff.mpr hmem
  subst hb
  refine ⟨t2, heq, ?_, hszT rfl, ?_⟩
  · cases hc : Table.contains hash t2 k with
    | false => rfl
    | true =>
      have hmm := (contains_iff_mem hinv2 k).mp hc
      rw [hmem2 k] at hmm
      exact absurd rfl hmm.2
  · intro j hj hjm
    exact (hmem2 j).mpr ⟨hjm, hj⟩

/-- Witness for claim C2: erasing 0 from the table holding 0..5. -/
theorem claim_C2_witness :
    Table.Mem c3tbl 0 ∧
    (∃ t2, Table.erase idhash c3tbl 0 = some (t2, true) ∧
      Table.contains idhash t2 0 = false ∧
      t2.size + 1 = c3tbl.size ∧
      ∀ j, j ≠ 0 → Table.Mem c3tbl j → Table.Mem t2 j) :=
  ⟨by decide, claim_C2 (reachable_runOps ((List.range 6).map Op.ins)
      (Table.empty Nat) c3tbl Reachable.base (by decide)) 0 (by decide)⟩

/-- Claim C3 (amended): growth fires proactively, before the insertion,
whenever the load factor exceeds 0.75 (then the capacity doubles); but the
claimed bound `size / capacity ≤ 0.75` after every insert is false — the
correct completed-insert bound is `4 * size ≤ 3 * capacity + 4`, one entry
above the threshold. -/
theorem claim_C3 {hash : K → Nat} {t : Table K} (hr : Reachable hash t) (k : K) :
    ∃ t2 b, Table.insert hash t k = some (t2, b) ∧
      4 * t2.size ≤ 3 * t2.capacity + 4 ∧
      (3 * t.capacity < 4 * t.size → t2.capacity = 2 * t.capacity) := by
  obtain ⟨t2, b, heq, hinv2, hbiff, hmem, hsT, hsF, hcT, hcF, hid⟩ :=
    insert_spec (reachable_inv hr) k
  refine ⟨t2, b, heq, ?_, ?_⟩
  · exact reachable_load (Reachable.ins hr heq)
  · intro hload
    exact hcT (shouldGrow_iff.mpr hload)

/-- Witness for claim C3 (amended) at the empty table and key 0. -/
theorem claim_C3_witness :
    ∃ t2 b, Table.insert idhash (Table.empty Nat) 0 = some (t2, b) ∧
      4 * t2.size ≤ 3 * t2.capacity + 4 ∧
      (3 * (Table.empty Nat).capacity < 4 * (Table.empty Nat).size →
        t2.capacity = 2 * (Table.empty Nat).capacity) :=
  claim_C3 Reachable.base 0

/-- Counterexample to claim C3 as stated: inserting 0..5 into the default
table (a reachable state, load factor 0.75) and then successfully inserting
6 leaves size 7 at capacity 8, a load factor of 0.875 > 0.75 right after a
completed insert — no growth happened because the check precedes the
insertion. -/
theorem counterexample_C3 :
    Reachable idhash c3tbl ∧
    Table.insert idhash c3tbl 6 = some (c3tbl7, true) ∧
    3 * c3tbl7.capacity < 4 * c3tbl7.size :=
  ⟨reachable_runOps ((List.range 6).map Op.ins) (Table.empty Nat) c3tbl
      Reachable.base (by decide),
    by decide, by decide⟩

/-- Claim C4 (amended): the Robin Hood invariant actually maintained is that
along any key's probe walk the probe distances of the entries encountered
increase by at most one per step (`next ≤ prev + 1`); the claimed
"non-increasing" ordering is false. -/
theorem claim_C4 {hash : K → Nat} {t : Table K} (hr : Reachable hash t) (k : K) :
    List.Chain' (fun a b => b ≤ a + 1) (walkDists hash t.arr k) :=
  walkDists_chain (reachable_inv hr).wf k

/-- Witness for claim C4 (amended) on the concrete table {0, 8, 1}. -/
theorem claim_C4_witness :
    List.Chain' (fun a b => b ≤ a + 1) (walkDists idhash c4tbl.arr 8) :=
  claim_C4 (reachable_runOps [Op.ins 0, Op.ins 8, Op.ins 1] (Table.empty Nat) c4tbl
    Reachable.base (by decide)) 8

/-- Counterexample to claim C4 as stated: in the reachable table built by
inserting 0, 8, 1 (identity hash, capacity 8), walking key 8 from its ideal
slot 0 encounters probe distances [0, 1] before finding the key — the trace
strictly increases, refuting the claimed non-increasing ordering. -/
theorem counterexample_C4 :
    Reachable idhash c4tbl ∧
    walkDists idhash c4tbl.arr 8 = [0, 1] ∧
    ¬ List.Chain' (fun a b : Nat => b ≤ a) (walkDists idhash c4tbl.arr 8) := by
  have hlist : walkDists idhash c4tbl.arr 8 = [0, 1] := by decide
  refine ⟨reachable_runOps [Op.ins 0, Op.ins 8, Op.ins 1] (Table.empty Nat) c4tbl
      Reachable.base (by decide), hlist, ?_⟩
  rw [hlist]
  intro hch
  have h01 := (List.chain'_cons.mp hch).1
  omega

/-- Claim C5: inserting distinct fresh keys succeeds one by one — the final
size is the old size plus the key count and every inserted key is contained;
when the load factor exceeds 0.75 an insert replaces the capacity with
`current * 2` (the `power_of_two_growth` policy) and re-inserts every live
entry; concretely, inserting the 20 integers 0..19 into a default
capacity-8 table yields size 20, capacity 32, and containment of every key. -/
theorem claim_C5 {hash : K → Nat} {t : Table K} (hr : Reachable hash t)
    (ks : List K) (hnd : ks.Nodup) (hfresh : ∀ k ∈ ks, ¬ Table.Mem t k) :
    (∃ t2, runOps hash t (ks.map Op.ins) = some t2 ∧
      t2.size = t.size + ks.length ∧
      ∀ k ∈ ks, Table.contains hash t2 k = true) ∧
    (3 * t.capacity < 4 * t.size →
      ∀ k, ∃ t2 b, Table.insert hash t k = some (t2, b) ∧
        t2.capacity = power_of_two_growth.next t.capacity ∧
        ∀ j, Table.Mem t j → Table.Mem t2 j) ∧
    (∃ T, runOps idhash (Table.empty Nat) ((List.range 20).map Op.ins) = some T ∧
      T.size = 20 ∧ T.capacity = 32 ∧ ∀ i, i < 20 → Table.contains idhash T i = true) := by
  refine ⟨?_, ?_, ?_⟩
  · obtain ⟨t2, heq, hr2, hsz, hmem⟩ := runOps_insert_list ks t hr hnd hfresh
    refine ⟨t2, heq, hsz, ?_⟩
    intro k hk
    exact (contains_iff_mem (reachable_inv hr2) k).mpr ((hmem k).mpr (Or.inr hk))
  · intro hload k
    obtain ⟨t2, b, heq, hinv2, hbiff, hmem, hsT, hsF, hcT, hcF, hid⟩ :=
      insert_spec (reachable_inv hr) k
    refine ⟨t2, b, heq, ?_, fun j hj => (hmem j).mpr (Or.inl hj)⟩
    show t2.capacity = t.capacity * 2
    rw [hcT (shouldGrow_iff.mpr hload)]
    exact Nat.mul_comm 2 t.capacity
  · refine ⟨(runOps idhash (Table.empty Nat) ((List.range 20).map Op.ins)).getD
      (Table.empty Nat), by decide, by decide, by decide, by decide⟩

/-- Witness for claim C5: one fresh key into the empty table. -/
theorem claim_C5_witness :
    ([5] : List Nat).Nodup ∧
    ((∃ t2, runOps idhash (Table.empty Nat) (([5] : List Nat).map Op.ins) = some t2 ∧
      t2.size = (Table.empty Nat).size + ([5] : List Nat).length ∧
      ∀ k ∈ ([5] : List Nat), Table.contains idhash t2 k = true) ∧
    (3 * (Table.empty Nat).capacity < 4 * (Table.empty Nat).size →
      ∀ k, ∃ t2 b, Table.insert idhash (Table.empty Nat) k = some (t2, b) ∧
        t2.capacity = power_of_two_growth.next (Table.empty Nat).capacity ∧
        ∀ j, Table.Mem (Table.empty Nat) j → Table.Mem t2 j) ∧
    (∃ T, runOps idhash (Table.empty Nat) ((List.range 20).map Op.ins) = some T ∧
      T.size = 20 ∧ T.capacity = 32 ∧ ∀ i, i < 20 → Table.contains idhash T i = true)) :=
  ⟨by decide, claim_C5 Reachable.base [5] (by decide) (by decide)⟩

/-- Claim C6 (amended): `max_probe_distance` is only an upper bound on the
probe distance of every live entry; it is not the exact maximum, because
`erase` never lowers it. -/
theorem claim_C6 {hash : K → Nat} {t : Table K} (hr : Reachable hash t) :
    ∀ j nd, slotAt t.arr j = some nd → nd.probes ≤ t.maxProbes :=
  (reachable_inv hr).probesLe

/-- Witness for claim C6 (amended) on the table built by inserting 0, 8 and
erasing 8. -/
theorem claim_C6_witness :
    slotAt c6tbl.arr 0 = some ⟨0, 0⟩ ∧ (⟨0, 0⟩ : Node Nat).probes ≤ c6tbl.maxProbes :=
  ⟨by decide, @claim_C6 Nat _ idhash c6tbl (reachable_runOps [Op.ins 0, Op.ins 8, Op.del 8]
      (Table.empty Nat) c6tbl Reachable.base (by decide)) 0 ⟨0, 0⟩ (by decide)⟩

/-- Counterexample to claim C6 as stated: after inserting 0 and 8 (identity
hash, so 8 sits one past its ideal slot) and erasing 8, the stored
`max_probe_distance` stays 1 while no live entry has probe distance above 0
— the field is an upper bound, not the exact maximum. -/
theorem counterexample_C6 :
    Reachable idhash c6tbl ∧ c6tbl.maxProbes = 1 ∧ maxLiveProbes c6tbl.arr = 0 :=
  ⟨reachable_runOps [Op.ins 0, Op.ins 8, Op.del 8] (Table.empty Nat) c6tbl
      Reachable.base (by decide), by decide, by decide⟩

/-- Claim C7: erasing an absent key from any reachable table returns `false`
and leaves the table bit-for-bit unchanged (size, capacity,
`max_probe_distance`, and all memberships included). -/
theorem claim_C7 {hash : K → Nat} {t : Table K} (hr : Reachable hash t) (k : K)
    (habs : ¬ Table.Mem t k) :
    Table.erase hash t k = some (t, false) := by
  obtain ⟨t2, b, heq, hinv2, hbiff, hmem2, hcap, hmp, hszT, hbf⟩ :=
    erase_spec (reachable_inv hr) k
  have hb : b = false := by
    cases b with
    | false => rfl
    | true => exact absurd (hbiff.mp rfl) habs
  subst hb
  rw [heq, hbf rfl]

/-- Witness for claim C7: erasing 3 from the empty table. -/
theorem claim_C7_witness :
    ¬ Table.Mem (Table.empty Nat) 3 ∧
    Table.erase idhash (Table.empty Nat) 3 = some (Table.empty Nat, false) :=
  ⟨by decide, claim_C7 Reachable.base 3 (by decide)⟩

/-- Claim C8: the probe sequence generator is a stateless function of the
hash and the capacity: at step `i` it produces `(hash + i) & (capacity - 1)`
(unit-stride linear probing, mask instead of modulo — the two agree for
power-of-two capacities). -/
theorem claim_C8 (h c i : Nat) (hpow : ∃ k, c = 2 ^ k) :
    ((linear_probe_seq.start h c).advance i).offset = (h + i) &&& (c - 1) ∧
    ((linear_probe_seq.start h c).advance i).offset = probeAt h c i ∧
    probeAt h c i = (h + i) % c := by
  have h1 : ((linear_probe_seq.start h c).advance i).offset = (h + i) &&& (c - 1) := by
    show (h + (0 + i)) &&& (c - 1) = (h + i) &&& (c - 1)
    rw [Nat.zero_add]
  exact ⟨h1, h1, probeAt_eq_mod hpow h i⟩

/-- Witness for claim C8 at hash 5, capacity 8, step 10. -/
theorem claim_C8_witness :
    (∃ k, 8 = 2 ^ k) ∧
    (((linear_probe_seq.start 5 8).advance 10).offset = (5 + 10) &&& (8 - 1) ∧
     ((linear_probe_seq.start 5 8).advance 10).offset = probeAt 5 8 10 ∧
     probeAt 5 8 10 = (5 + 10) % 8) :=
  ⟨⟨3, rfl⟩, claim_C8 5 8 10 ⟨3, rfl⟩⟩

/-- Claim C9: on a reachable table whose load factor exceeds 0.75, inserting
a key that is already present returns `false` and keeps `size`, yet still
doubles the capacity and rehashes every live entry, because the growth check
runs before the duplicate check. -/
theorem claim_C9 {hash : K → Nat} {t : Table K} (hr : Reachable hash t)
    (hload : 3 * t.capacity < 4 * t.size) (k : K) (hmem : Table.Mem t k) :
    ∃ t2, Table.insert hash t k = some (t2, false) ∧ t2.size = t.size ∧
      t2.capacity = 2 * t.capacity ∧ ∀ j, Table.Mem t2 j ↔ Table.Mem t j := by
  obtain ⟨t2, b, heq, hinv2, hbiff, hmem2, hsT, hsF, hcT, hcF, hid⟩ :=
    insert_spec (reachable_inv hr) k
  have hb : b = false := by
    cases b with
    | false => rfl
    | true => exact absurd hmem (hbiff.mp rfl)
  subst hb
  refine ⟨t2, heq, hsF rfl, hcT (shouldGrow_iff.mpr hload), ?_⟩
  intro j
  rw [hmem2 j]
  constructor
  · rintro (h | h)
    · exact h
    · subst h
      exact hmem
  · exact Or.inl

/-- Witness for claim C9: duplicate insert of 0 into the table holding 0..6
(load factor 7/8). -/
theorem claim_C9_witness :
    3 * c3tbl7.capacity < 4 * c3tbl7.size ∧ Table.Mem c3tbl7 0 ∧
    (∃ t2, Table.insert idhash c3tbl7 0 = some (t2, false) ∧ t2.size = c3tbl7.size ∧
      t2.capacity = 2 * c3tbl7.capacity ∧ ∀ j, Table.Mem t2 j ↔ Table.Mem c3tbl7 j) :=
  ⟨by decide, by decide,
    claim_C9 (reachable_runOps ((List.range 7).map Op.ins) (Table.empty Nat) c3tbl7
      Reachable.base (by decide)) (by decide) 0 (by decide)⟩

/-- Claim C10: `insert` never disturbs other keys — every key distinct from
the inserted one that was contained before is still contained afterwards,
even across slot-stealing displacement chains and growth. -/
theorem claim_C10 {hash : K → Nat} {t : Table K} (hr : Reachable hash t) (k : K) :
    ∃ t2 b, Table.insert hash t k = some (t2, b) ∧
      ∀ j, j ≠ k → Table.contains hash t j = true → Table.contains hash t2 j = true := by
  obtain ⟨t2, b, heq, hinv2, hbiff, hmem2, _, _, _, _, _⟩ :=
    insert_spec (reachable_inv hr) k
  refine ⟨t2, b, heq, ?_⟩
  intro j hj hcj
  have hmj : Table.Mem t j := (contains_iff_mem (reachable_inv hr) j).mp hcj
  exact (contains_iff_mem hinv2 j).mpr ((hmem2 j).mpr (Or.inl hmj))

/-- Witness for claim C10: inserting 6 into the table holding 0..5. -/
theorem claim_C10_witness :
    ∃ t2 b, Table.insert idhash c3tbl 6 = some (t2, b) ∧
      ∀ j, j ≠ 6 → Table.contains idhash c3tbl j = true →
        Table.contains idhash t2 j = true :=
  claim_C10 (reachable_runOps ((List.range 6).map Op.ins) (Table.empty Nat) c3tbl
    Reachable.base (by decide)) 6

end Lemmas

end Vecl
